import Mathlib

/-!
Verification of the redaction core of `filtered_logger.py`: `filter_datum`
(regex-substitution based field redaction), the `RedactingFormatter`, and
`get_logger`.

Strings are modelled as `List Char`.  The regular expression
`(?<=<field><separator>)(.*?)(?=<separator>)` used by the source is modelled
by an explicit left-to-right scan with the exact semantics of `re.sub` for
this pattern: a fixed-width lookbehind over the original text, a lazy run of
non-newline characters (`.` does not match a newline), a lookahead for the
separator, non-overlapping matches scanned left to right, and the
empty-match rule (an empty match is replaced and the scan then advances by
one character).  Field names, separator and redaction token are treated as
literal text — the behaviour of the compiled regex whenever they contain no
regex metacharacters, which is the regime the module uses (`PII_FIELDS`,
separator `";"`, token `"***"`).
-/

/-- The lazy run `(.*?)(?=sep)` of the source regex: length of the shortest
run of non-newline characters after which `sep` occurs in `rest`, or `none`
when no such run exists. -/
def findClose (sep : List Char) : List Char → Option Nat
  | [] => if sep.isPrefixOf ([] : List Char) then some 0 else none
  | x :: cs =>
    if sep.isPrefixOf (x :: cs) then some 0
    else if x = '\n' then none
    else (findClose sep cs).map (· + 1)

/-- The lazy run under the must-advance constraint (`k ≥ 1`): after an empty
match, `re.sub` (CPython ≥ 3.7) retries the pattern at the same position
forbidding another empty match there; the lazy run then starts at one
character. -/
def findClose1 (sep : List Char) : List Char → Option Nat
  | [] => none
  | x :: cs => if x = '\n' then none else (findClose sep cs).map (· + 1)

/-- One field's pass of `re.sub(rf"(?<={field}{separator})(.*?)(?={separator})",
redaction, message)` as an explicit scan.  `pat` is
`(field ++ separator).reverse`; `rev` holds the reversed original characters
already passed (the lookbehind window); `rest` is the remaining input.
An empty match is replaced and the pattern retried at the same position
under must-advance; if that also fails the scan advances one character.
The fuel argument only serves structural recursion; `rest.length + 1` is
always enough (`subAux_congr`). -/
def subAux (pat sep red : List Char) : Nat → List Char → List Char → List Char
  | 0, _, rest => rest
  | fuel + 1, rev, rest =>
    if pat.isPrefixOf rev then
      match findClose sep rest with
      | some 0 =>
        match findClose1 sep rest with
        | some k =>
          red ++ red ++ subAux pat sep red fuel ((rest.take k).reverse ++ rev) (rest.drop k)
        | none =>
          match rest with
          | [] => red
          | x :: cs => red ++ x :: subAux pat sep red fuel (x :: rev) cs
      | some (k + 1) =>
        red ++ subAux pat sep red fuel ((rest.take (k + 1)).reverse ++ rev) (rest.drop (k + 1))
      | none =>
        match rest with
        | [] => []
        | x :: cs => x :: subAux pat sep red fuel (x :: rev) cs
    else
      match rest with
      | [] => []
      | x :: cs => x :: subAux pat sep red fuel (x :: rev) cs

/-- `re.sub` for one field of `filter_datum`. -/
def reSub (field sep red msg : List Char) : List Char :=
  subAux ((field ++ sep).reverse) sep red (msg.length + 1) [] msg

/-- `filter_datum(fields, redaction, message, separator)` from
`filtered_logger.py`: the fields are processed in order, each by one
`re.sub` pass over the current message. -/
def filter_datum (fields : List (List Char)) (redaction message separator : List Char) :
    List Char :=
  fields.foldl (fun msg field => reSub field separator redaction msg) message

/-- `filter_datum` on Lean strings (convenience wrapper). -/
def filter_datumStr (fields : List String) (redaction message separator : String) : String :=
  String.mk (filter_datum (fields.map String.data) redaction.data message.data separator.data)

/-- The scan with its canonical fuel; `reSub field sep red msg =
runScan ((field ++ sep).reverse) sep red [] msg`. -/
def runScan (pat sep red rev rest : List Char) : List Char :=
  subAux pat sep red (rest.length + 1) rev rest

-- ### Totality: the scan with partiality made explicit always succeeds

/-- `subAux` with the fuel-exhaustion case made an explicit failure value:
`subAuxO` returns `none` exactly when the recursion would run out of fuel.
`subAuxO_eq_some` shows this never happens with fuel `rest.length + 1`, i.e.
each `re.sub` pass terminates with a result on every input. -/
def subAuxO (pat sep red : List Char) : Nat → List Char → List Char → Option (List Char)
  | 0, _, _ => none
  | fuel + 1, rev, rest =>
    if pat.isPrefixOf rev then
      match findClose sep rest with
      | some 0 =>
        match findClose1 sep rest with
        | some k =>
          (subAuxO pat sep red fuel ((rest.take k).reverse ++ rev) (rest.drop k)).map
            (fun r => red ++ red ++ r)
        | none =>
          match rest with
          | [] => some red
          | x :: cs => (subAuxO pat sep red fuel (x :: rev) cs).map (fun r => red ++ x :: r)
      | some (k + 1) =>
        (subAuxO pat sep red fuel ((rest.take (k + 1)).reverse ++ rev) (rest.drop (k + 1))).map
          (fun r => red ++ r)
      | none =>
        match rest with
        | [] => some []
        | x :: cs => (subAuxO pat sep red fuel (x :: rev) cs).map (fun r => x :: r)
    else
      match rest with
      | [] => some []
      | x :: cs => (subAuxO pat sep red fuel (x :: rev) cs).map (fun r => x :: r)

/-- One `re.sub` pass, partiality explicit. -/
def reSubO (field sep red msg : List Char) : Option (List Char) :=
  subAuxO ((field ++ sep).reverse) sep red (msg.length + 1) [] msg

/-- `filter_datum`, partiality explicit. -/
def filter_datumO (fields : List (List Char)) (redaction message separator : List Char) :
    Option (List Char) :=
  fields.foldl (fun acc field => acc.bind (reSubO field separator redaction)) (some message)

-- ### Separator-split view of a message (single-character separator)

/-- Helper for `splitSep`: first segment and remaining segments. -/
def splitSepH (c : Char) : List Char → List Char × List (List Char)
  | [] => ([], [])
  | x :: xs =>
    let p := splitSepH c xs
    if x = c then ([], p.1 :: p.2) else (x :: p.1, p.2)

/-- Split a string at every occurrence of the (single-character) separator;
always returns at least one (possibly empty) segment. -/
def splitSep (c : Char) (l : List Char) : List (List Char) :=
  (splitSepH c l).1 :: (splitSepH c l).2

/-- Rejoin segments with the separator; left inverse of `splitSep`. -/
def joinSep (c : Char) : List (List Char) → List Char
  | [] => []
  | [p] => p
  | p :: q :: rest => p ++ c :: joinSep c (q :: rest)

-- ### Segment-level form of one redaction pass

/-- Newline-free segment (a lazy `.*?` run can span it). -/
def noNL (p : List Char) : Bool := p.all (fun a => a != '\n')

/-- Segment-level form of one `re.sub` pass for a single-character separator
`c` and a field free of it: `prev` is the previous segment of the pass
input; a segment whose predecessor ends in the field, which is newline-free
and which is followed by a further separator, is replaced by the token.
Matches the scan on split messages whose non-final segments are nonempty
(`runScan_eq_segs`). -/
def redactSegsAux (field red : List Char) : List Char → List (List Char) → List (List Char)
  | _, [] => []
  | _, [p] => [p]
  | prev, p :: q :: rest =>
    (if field.isSuffixOf prev && noNL p then red else p) ::
      redactSegsAux field red p (q :: rest)

/-- Segment-level form of one `re.sub` pass: the first segment is never a
value span, the rest are handled by `redactSegsAux`. -/
def redactSegs (field red : List Char) : List (List Char) → List (List Char)
  | [] => []
  | p :: ps => p :: redactSegsAux field red p ps

/-- All segments except the final one are nonempty (the message has no two
adjacent separators creating an empty value span). -/
def noEmptySeg : List (List Char) → Bool
  | [] => true
  | [_] => true
  | p :: q :: rest => (!p.isEmpty) && noEmptySeg (q :: rest)

/-- Segment-level form of the whole `filter_datum`: one `redactSegs` pass
per field, in order. -/
def redactAll (fields : List (List Char)) (red : List Char)
    (parts : List (List Char)) : List (List Char) :=
  fields.foldl (fun ps field => redactSegs field red ps) parts

-- ### Idempotence of the segment-level redaction

/-- After a field's pass every segment that is forced by that field is
already the token. -/
def StableAux (field red : List Char) : List Char → List (List Char) → Prop
  | _, [] => True
  | _, [_] => True
  | prev, p :: q :: rest =>
    (field.isSuffixOf prev = true → noNL p = true → p = red) ∧
      StableAux field red p (q :: rest)

/-- Top-level form of `StableAux`. -/
def Stable (field red : List Char) : List (List Char) → Prop
  | [] => True
  | p :: ps => StableAux field red p ps

-- ### Order independence of the field list under a no-chain condition

/-- Some field is a suffix of the segment. -/
def anySuf (fields : List (List Char)) (p : List Char) : Bool :=
  fields.any (fun f => f.isSuffixOf p)

/-- All-fields-at-once segment redaction (the closed form reached by the
sequential passes when no redaction chains through a freshly replaced
segment). -/
def redactAllSegsAux (fields : List (List Char)) (red : List Char) :
    List Char → List (List Char) → List (List Char)
  | _, [] => []
  | _, [p] => [p]
  | prev, p :: q :: rest =>
    (if anySuf fields prev && noNL p then red else p) ::
      redactAllSegsAux fields red p (q :: rest)

/-- Top level of `redactAllSegsAux`. -/
def redactAllSegs (fields : List (List Char)) (red : List Char) :
    List (List Char) → List (List Char)
  | [] => []
  | p :: ps => p :: redactAllSegsAux fields red p ps

/-- No two consecutive segments both end in a field name: a redacted
segment is then never the trigger of a later field's replacement. -/
def noChainAuxB (fields : List (List Char)) : List Char → List (List Char) → Bool
  | _, [] => true
  | prev, p :: ps => (!(anySuf fields prev && anySuf fields p)) && noChainAuxB fields p ps

/-- Top level of `noChainAuxB`. -/
def noChainB (fields : List (List Char)) : List (List Char) → Bool
  | [] => true
  | p :: ps => noChainAuxB fields p ps

-- ### The replacement rule exactly as the specification states it

/-- One field pass as the specification sentence describes it (claim C1),
segment-wise: the value span after every `field`-plus-separator boundary,
up to (but not including) the next separator, is replaced by the token —
with no newline restriction and no empty-match retry. -/
def specSegsAux (field red : List Char) : List Char → List (List Char) → List (List Char)
  | _, [] => []
  | _, [p] => [p]
  | prev, p :: q :: rest =>
    (if field.isSuffixOf prev then red else p) :: specSegsAux field red p (q :: rest)

/-- Top level of `specSegsAux`. -/
def specSegs (field red : List Char) : List (List Char) → List (List Char)
  | [] => []
  | p :: ps => p :: specSegsAux field red p ps

/-- `filter_datum` as the specification describes it: the fields processed
in order, each pass replacing every boundary-delimited value span by the
token. -/
def filter_datumSpec (fields : List (List Char)) (redaction message : List Char)
    (c : Char) : List Char :=
  joinSep c (fields.foldl (fun ps f => specSegs f redaction ps) (splitSep c message))

/-- `filter_datumSpec` on Lean strings. -/
def filter_datumSpecStr (fields : List String) (redaction message : String) (c : Char) :
    String :=
  String.mk (filter_datumSpec (fields.map String.data) redaction.data message.data c)

-- ### The redacting formatter over the percent-template renderer

/-- The slice of a `logging.LogRecord` the formatter reads: the logger name,
the level name, the rendered time, and the message text (the records this
program emits carry no interpolation arguments, so `record.getMessage()`
returns the raw message). -/
structure LogRecord where
  name : List Char
  levelname : List Char
  asctime : List Char
  msg : List Char

/-- `record.getMessage()` for an argument-free record. -/
def getMessage (r : LogRecord) : List Char := r.msg

/-- `RedactingFormatter.REDACTION`. -/
def REDACTION : List Char := "***".data

/-- `RedactingFormatter.FORMAT`. -/
def FORMAT : List Char :=
  "[USER] %(name)s %(levelname)s %(asctime)s: %(message)s".data

/-- `RedactingFormatter.SEPARATOR`. -/
def SEPARATOR : List Char := ";".data

/-- Attribute lookup on the record, for the names `FORMAT` references
(`%(message)s` reads the rendered message, which for an argument-free
record is the stored message text). -/
def recordLookup (r : LogRecord) (key : List Char) : Option (List Char) :=
  if key = "name".data then some r.name
  else if key = "levelname".data then some r.levelname
  else if key = "asctime".data then some r.asctime
  else if key = "message".data then some (getMessage r)
  else none

/-- Reads a `%(key)s` key up to the closing parenthesis. -/
def readKey : List Char → Option (List Char × List Char)
  | [] => none
  | a :: cs =>
    if a = ')' then some ([], cs)
    else (readKey cs).map (fun p => (a :: p.1, p.2))

/-- Python percent-style rendering of a template whose placeholders are all
of the `%(key)s` form (the only form `FORMAT` uses); `none` on a malformed
template or an unknown key. -/
def renderAux (lookup : List Char → Option (List Char)) :
    Nat → List Char → Option (List Char)
  | 0, _ => none
  | _, [] => some []
  | fuel + 1, '%' :: rest =>
    match rest with
    | '(' :: rest1 =>
      match readKey rest1 with
      | none => none
      | some (key, rest2) =>
        match rest2 with
        | 's' :: rest3 =>
          match lookup key with
          | none => none
          | some v => (renderAux lookup fuel rest3).map (fun t => v ++ t)
        | _ => none
    | _ => none
  | fuel + 1, a :: cs => (renderAux lookup fuel cs).map (fun t => a :: t)

/-- `logging.Formatter.format` for the format string `FORMAT`: renders the
template over the record's attributes. -/
def formatMessage (r : LogRecord) : Option (List Char) :=
  renderAux (recordLookup r) (FORMAT.length + 1) FORMAT

/-- `RedactingFormatter.format`: overwrites `record.msg` with the redacted
rendered message, then delegates to the standard formatter. Returns the
mutated record together with the final line. -/
def RedactingFormatter_format (fields : List (List Char)) (r : LogRecord) :
    LogRecord × Option (List Char) :=
  let r2 : LogRecord :=
    { r with msg := filter_datum fields REDACTION (getMessage r) SEPARATOR }
  (r2, formatMessage r2)

/-- The output-line shape as the specification's template states it:
`[USER] <level> <timestamp>: <redacted message>`, with no logger-name slot. -/
def claimedLine (levelname asctime redacted : List Char) : List Char :=
  "[USER] ".data ++ levelname ++ " ".data ++ asctime ++ ": ".data ++ redacted

-- ### The module-level logger built by get_logger

/-- A handler as this program configures one: a `StreamHandler` carrying a
`RedactingFormatter` over a field list. -/
structure Handler where
  fields : List (List Char)

/-- The slice of `logging.Logger` state this program touches. A fresh logger
starts at level `NOTSET = 0` with `propagate = true` and no handlers. -/
structure PyLogger where
  level : Nat
  propagate : Bool
  handlers : List Handler

/-- `logging.INFO`. -/
def INFO : Nat := 20

/-- `logging.getLogger("user_data")` against the registry state for that
name: the existing logger, or a fresh one. -/
def getLoggerUserData : Option PyLogger → PyLogger
  | some lg => lg
  | none => { level := 0, propagate := true, handlers := [] }

/-- `PII_FIELDS`. -/
def PII_FIELDS : List (List Char) :=
  ["name".data, "email".data, "phone".data, "ssn".data, "password".data]

/-- One `get_logger()` call, as a function of the registry state for the
name "user_data": sets the level and `propagate`, and appends one more
redacting stream handler to the shared logger. -/
def get_logger (st : Option PyLogger) : PyLogger :=
  let lg := getLoggerUserData st
  { lg with
    level := INFO
    propagate := false
    handlers := lg.handlers ++ [{ fields := PII_FIELDS }] }

/-- How many lines one `logger.info(...)` call writes: the level check
passes when the logger level is at most `INFO`, and then each attached
handler (handlers default to level `NOTSET`, which filters nothing) emits
one line; `propagate = false` stops ancestor handlers from adding more. -/
def infoLineCount (lg : PyLogger) : Nat :=
  if lg.level ≤ INFO then lg.handlers.length else 0

-- ### Counting occurrences of a pattern

/-- The number of positions of `l` at which `pat` begins (for a nonempty
`pat`, the number of occurrences of `pat` inside `l`). -/
def countOcc (pat : List Char) : List Char → Nat
  | [] => 0
  | a :: l => (if pat.isPrefixOf (a :: l) then 1 else 0) + countOcc pat l

example : (RedactingFormatter_format [ "name".data ]
    { name := "user_data".data, levelname := "INFO".data, asctime := "ts".data,
      msg := "name;Bob;".data }).2 =
  some "[USER] user_data INFO ts: name;***;".data := by decide

example (fields : List (List Char)) (r : LogRecord) :
    (RedactingFormatter_format fields r).2 =
      some ("[USER] ".data ++ r.name ++ " ".data ++ r.levelname ++ " ".data ++
        r.asctime ++ ": ".data ++
        filter_datum fields REDACTION (getMessage r) SEPARATOR) := by
  have h : (RedactingFormatter_format fields r).2 =
      some ("[USER] ".data ++ (r.name ++ (' ' :: (r.levelname ++ (' ' :: (r.asctime ++
        (':' :: ' ' :: (filter_datum fields REDACTION (getMessage r) SEPARATOR
          ++ [])))))))) := by rfl
  rw [h]
  simp

example : infoLineCount (get_logger none) = 1 := by decide

example : infoLineCount (get_logger (some (get_logger none))) = 2 := by decide

example : countOcc "name".data "name;name;x;".data = 2 := by decide

-- ### Basic facts about `findClose` and fuel irrelevance

theorem findClose_nil_of_ne (sep : List Char) (h : sep ≠ []) :
    findClose sep [] = none := by
  have : sep.isPrefixOf ([] : List Char) = false := by
    cases sep with
    | nil => exact absurd rfl h
    | cons a l => rfl
  simp [findClose, this]

theorem findClose1_pos {sep rest : List Char} {k : Nat} (h : findClose1 sep rest = some k) :
    1 ≤ k := by
  cases rest with
  | nil => simp [findClose1] at h
  | cons x cs =>
    simp only [findClose1] at h
    by_cases hx : x = '\n'
    · simp [hx] at h
    · simp only [if_neg hx, Option.map_eq_some'] at h
      obtain ⟨m, _, hm⟩ := h
      omega

theorem findClose1_nil (sep : List Char) : findClose1 sep [] = none := rfl

theorem findClose_some_ne_nil {sep rest : List Char} {k : Nat}
    (h : findClose sep rest = some (k + 1)) : rest ≠ [] := by
  intro hr
  subst hr
  simp only [findClose] at h
  by_cases hp : sep.isPrefixOf ([] : List Char) <;> simp [hp] at h

theorem subAux_succ (pat sep red : List Char) (fuel : Nat) (rev rest : List Char) :
    subAux pat sep red (fuel + 1) rev rest =
      if pat.isPrefixOf rev then
        match findClose sep rest with
        | some 0 =>
          match findClose1 sep rest with
          | some k =>
            red ++ red ++ subAux pat sep red fuel ((rest.take k).reverse ++ rev) (rest.drop k)
          | none =>
            match rest with
            | [] => red
            | x :: cs => red ++ x :: subAux pat sep red fuel (x :: rev) cs
        | some (k + 1) =>
          red ++ subAux pat sep red fuel ((rest.take (k + 1)).reverse ++ rev) (rest.drop (k + 1))
        | none =>
          match rest with
          | [] => []
          | x :: cs => x :: subAux pat sep red fuel (x :: rev) cs
      else
        match rest with
        | [] => []
        | x :: cs => x :: subAux pat sep red fuel (x :: rev) cs := rfl

theorem subAux_congr (pat sep red : List Char) :
    ∀ f₁ f₂ rev rest, rest.length < f₁ → rest.length < f₂ →
      subAux pat sep red f₁ rev rest = subAux pat sep red f₂ rev rest := by
  intro f₁
  induction f₁ with
  | zero => intro f₂ rev rest h₁ h₂; omega
  | succ f₁ ih =>
    intro f₂ rev rest h₁ h₂
    match f₂, h₂ with
    | f₂ + 1, h₂ =>
      rw [subAux_succ pat sep red f₁ rev rest, subAux_succ pat sep red f₂ rev rest]
      by_cases hb : pat.isPrefixOf rev
      · cases hfc : findClose sep rest with
        | none =>
          cases rest with
          | nil => simp [hb, hfc]
          | cons x cs =>
            simp only [List.length_cons] at h₁ h₂
            simp only [hb, if_true, hfc]
            rw [ih f₂ (x :: rev) cs (by omega) (by omega)]
        | some k =>
          cases k with
          | zero =>
            cases hf1 : findClose1 sep rest with
            | none =>
              cases rest with
              | nil => simp [hb, hfc, hf1]
              | cons x cs =>
                simp only [List.length_cons] at h₁ h₂
                simp only [hb, if_true, hfc, hf1]
                rw [ih f₂ (x :: rev) cs (by omega) (by omega)]
            | some m =>
              have hm : 1 ≤ m := findClose1_pos hf1
              have hne : rest ≠ [] := by
                intro hr; subst hr; rw [findClose1_nil] at hf1; exact Option.noConfusion hf1
              have hlen : (rest.drop m).length < rest.length := by
                rw [List.length_drop]
                cases rest with
                | nil => exact absurd rfl hne
                | cons x cs => simp only [List.length_cons]; omega
              simp only [hb, if_true, hfc, hf1]
              rw [ih f₂ ((rest.take m).reverse ++ rev) (rest.drop m) (by omega) (by omega)]
          | succ k =>
            have hne : rest ≠ [] := findClose_some_ne_nil hfc
            have hlen : (rest.drop (k + 1)).length < rest.length := by
              rw [List.length_drop]
              cases rest with
              | nil => exact absurd rfl hne
              | cons x cs => simp only [List.length_cons]; omega
            simp only [hb, if_true, hfc]
            rw [ih f₂ ((rest.take (k + 1)).reverse ++ rev) (rest.drop (k + 1)) (by omega) (by omega)]
      · cases rest with
        | nil => simp [hb]
        | cons x cs =>
          simp only [List.length_cons] at h₁ h₂
          simp only [hb, Bool.false_eq_true, if_false]
          rw [ih f₂ (x :: rev) cs (by omega) (by omega)]

theorem subAux_eq_runScan (pat sep red : List Char) {fuel : Nat} (rev rest : List Char)
    (h : rest.length < fuel) :
    subAux pat sep red fuel rev rest = runScan pat sep red rev rest :=
  subAux_congr pat sep red fuel (rest.length + 1) rev rest h (Nat.lt_succ_self _)

theorem reSub_eq_runScan (field sep red msg : List Char) :
    reSub field sep red msg = runScan ((field ++ sep).reverse) sep red [] msg := rfl

-- ### Step equations for `runScan`

theorem runScan_nil (pat sep red rev : List Char) (hsep : sep ≠ []) :
    runScan pat sep red rev [] = [] := by
  show subAux pat sep red (0 + 1) rev [] = []
  rw [subAux_succ]
  by_cases hb : pat.isPrefixOf rev
  · simp [hb, findClose_nil_of_ne sep hsep]
  · simp [hb]

theorem runScan_copy {pat rev : List Char} (sep red : List Char) (x : Char) (cs : List Char)
    (hb : pat.isPrefixOf rev = false) :
    runScan pat sep red rev (x :: cs) = x :: runScan pat sep red (x :: rev) cs := by
  show subAux pat sep red ((x :: cs).length + 1) rev (x :: cs) = _
  rw [subAux_succ]
  simp only [hb, Bool.false_eq_true, if_false]
  rfl

theorem runScan_copy₂ {pat sep rev : List Char} (red : List Char) (x : Char) (cs : List Char)
    (hb : pat.isPrefixOf rev = true) (hfc : findClose sep (x :: cs) = none) :
    runScan pat sep red rev (x :: cs) = x :: runScan pat sep red (x :: rev) cs := by
  show subAux pat sep red ((x :: cs).length + 1) rev (x :: cs) = _
  rw [subAux_succ, hb, hfc]
  rfl

theorem runScan_match {pat sep rev rest : List Char} (red : List Char) {k : Nat}
    (hb : pat.isPrefixOf rev = true) (hfc : findClose sep rest = some (k + 1)) :
    runScan pat sep red rev rest =
      red ++ runScan pat sep red ((rest.take (k + 1)).reverse ++ rev) (rest.drop (k + 1)) := by
  have hne : rest ≠ [] := findClose_some_ne_nil hfc
  have hlen : (rest.drop (k + 1)).length < rest.length := by
    rw [List.length_drop]
    cases rest with
    | nil => exact absurd rfl hne
    | cons y ys => simp only [List.length_cons]; omega
  show subAux pat sep red (rest.length + 1) rev rest = _
  rw [subAux_succ, hb, hfc]
  exact congrArg (red ++ ·) (subAux_congr pat sep red _ _ _ _ hlen (Nat.lt_succ_self _))

theorem runScan_empty_retry {pat sep rev rest : List Char} (red : List Char) {k : Nat}
    (hb : pat.isPrefixOf rev = true) (hfc : findClose sep rest = some 0)
    (hf1 : findClose1 sep rest = some k) :
    runScan pat sep red rev rest =
      red ++ red ++ runScan pat sep red ((rest.take k).reverse ++ rev) (rest.drop k) := by
  have hk : 1 ≤ k := findClose1_pos hf1
  have hne : rest ≠ [] := by
    intro hr; subst hr; rw [findClose1_nil] at hf1; exact Option.noConfusion hf1
  have hlen : (rest.drop k).length < rest.length := by
    rw [List.length_drop]
    cases rest with
    | nil => exact absurd rfl hne
    | cons y ys => simp only [List.length_cons]; omega
  show subAux pat sep red (rest.length + 1) rev rest = _
  rw [subAux_succ, hb, hfc, hf1]
  exact congrArg (red ++ red ++ ·) (subAux_congr pat sep red _ _ _ _ hlen (Nat.lt_succ_self _))

theorem runScan_empty_fail {pat sep rev : List Char} (red : List Char) (x : Char)
    (cs : List Char) (hb : pat.isPrefixOf rev = true) (hfc : findClose sep (x :: cs) = some 0)
    (hf1 : findClose1 sep (x :: cs) = none) :
    runScan pat sep red rev (x :: cs) = red ++ x :: runScan pat sep red (x :: rev) cs := by
  show subAux pat sep red ((x :: cs).length + 1) rev (x :: cs) = _
  rw [subAux_succ, hb, hfc, hf1]
  rfl

-- ### The scan is the identity when the boundary pattern does not occur

theorem bd_occurrence {pat rev rest msg : List Char} (hb : pat.isPrefixOf rev = true)
    (hinv : rev.reverse ++ rest = msg) : pat.reverse <:+: msg := by
  have h₁ : pat <+: rev := List.isPrefixOf_iff_prefix.mp hb
  have h₂ : pat.reverse <:+ rev.reverse := List.reverse_suffix.mpr h₁
  obtain ⟨t, ht⟩ := h₂
  exact ⟨t, rest, by rw [← hinv, ← ht, List.append_assoc]⟩

theorem runScan_nil₂ {pat rev : List Char} (sep red : List Char)
    (hb : pat.isPrefixOf rev = false) : runScan pat sep red rev [] = [] := by
  show subAux pat sep red (0 + 1) rev [] = []
  rw [subAux_succ, hb]
  rfl

theorem runScan_id {pat sep red msg : List Char} (h : ¬ pat.reverse <:+: msg) :
    ∀ rest rev, rev.reverse ++ rest = msg → runScan pat sep red rev rest = rest := by
  intro rest
  induction rest with
  | nil =>
    intro rev hinv
    have hb : pat.isPrefixOf rev = false := by
      cases hp : pat.isPrefixOf rev with
      | true => exact absurd (bd_occurrence hp hinv) h
      | false => rfl
    exact runScan_nil₂ sep red hb
  | cons x cs ih =>
    intro rev hinv
    have hb : pat.isPrefixOf rev = false := by
      cases hp : pat.isPrefixOf rev with
      | true => exact absurd (bd_occurrence hp hinv) h
      | false => rfl
    rw [runScan_copy sep red x cs hb, ih (x :: rev) (by simpa using hinv)]

theorem reSub_id {field sep red msg : List Char} (h : ¬ (field ++ sep) <:+: msg) :
    reSub field sep red msg = msg := by
  rw [reSub_eq_runScan]
  exact runScan_id (by simpa using h) msg [] rfl

theorem filter_datum_id {fields : List (List Char)} {red msg sep : List Char}
    (h : ∀ f ∈ fields, ¬ f <:+: msg) : filter_datum fields red msg sep = msg := by
  induction fields with
  | nil => rfl
  | cons f fs ih =>
    have h₁ : reSub f sep red msg = msg := by
      refine reSub_id fun hin => h f (List.mem_cons_self f fs) ?_
      exact ((List.prefix_append f sep).isInfix).trans hin
    show List.foldl (fun msg field => reSub field sep red msg) (reSub f sep red msg) fs = msg
    rw [h₁]
    exact ih fun g hg => h g (List.mem_cons_of_mem f hg)

-- ### The scan never touches a closing-separator-free tail

theorem findClose_isPrefixOf_drop (sep : List Char) :
    ∀ rest k, findClose sep rest = some k → sep.isPrefixOf (rest.drop k) = true := by
  intro rest
  induction rest with
  | nil =>
    intro k hk
    simp only [findClose] at hk
    by_cases hp : sep.isPrefixOf ([] : List Char)
    · simp only [hp, if_true, Option.some.injEq] at hk
      subst hk
      exact hp
    · simp [hp] at hk
  | cons x cs ih =>
    intro k hk
    simp only [findClose] at hk
    by_cases hp : sep.isPrefixOf (x :: cs)
    · simp only [hp, if_true, Option.some.injEq] at hk
      subst hk
      exact hp
    · by_cases hx : x = '\n'
      · subst hx
        simp [hp] at hk
      · cases hm : findClose sep cs with
        | none =>
          rw [hm] at hk
          simp [hp, hx] at hk
        | some m =>
          rw [hm] at hk
          simp [hp, hx] at hk
          have hkm : k = m + 1 := by omega
          subst hkm
          simpa using ih m hm

theorem findClose1_isPrefixOf_drop (sep : List Char) :
    ∀ rest k, findClose1 sep rest = some k → sep.isPrefixOf (rest.drop k) = true := by
  intro rest k hk
  cases rest with
  | nil => simp [findClose1] at hk
  | cons x cs =>
    simp only [findClose1] at hk
    by_cases hx : x = '\n'
    · simp [hx] at hk
    · simp only [hx, if_false, Option.map_eq_some'] at hk
      obtain ⟨m, hm, hmk⟩ := hk
      subst hmk
      simpa using findClose_isPrefixOf_drop sep cs m hm

theorem infix_of_isPrefixOf_drop {sep l : List Char} {j : Nat}
    (h : sep.isPrefixOf (l.drop j) = true) : sep <:+: l := by
  have hp : sep <+: l.drop j := List.isPrefixOf_iff_prefix.mp h
  obtain ⟨t, ht⟩ := hp
  exact ⟨l.take j, t, by rw [List.append_assoc, ht, List.take_append_drop]⟩

theorem findClose_none_of_no_close {sep : List Char} (hsep : sep ≠ []) :
    ∀ rest, ¬ sep <:+: rest → findClose sep rest = none := by
  intro rest
  induction rest with
  | nil => intro _; exact findClose_nil_of_ne sep hsep
  | cons x cs ih =>
    intro h
    have hp : sep.isPrefixOf (x :: cs) = false := by
      cases hq : sep.isPrefixOf (x :: cs) with
      | true => exact absurd (List.isPrefixOf_iff_prefix.mp hq).isInfix h
      | false => rfl
    simp only [findClose, hp, if_false]
    by_cases hx : x = '\n'
    · simp [hx]
    · have hcs : ¬ sep <:+: cs := by
        intro ⟨s, t, hst⟩
        exact h ⟨x :: s, t, by rw [← hst]; rfl⟩
      simp [hx, ih hcs]

theorem subAux_id_of_no_close {pat sep red : List Char} (hsep : sep ≠ []) :
    ∀ rest, ¬ sep <:+: rest → ∀ fuel rev, subAux pat sep red fuel rev rest = rest := by
  intro rest
  induction rest with
  | nil =>
    intro _ fuel rev
    cases fuel with
    | zero => rfl
    | succ fuel =>
      rw [subAux_succ]
      by_cases hb : pat.isPrefixOf rev
      · simp [hb, findClose_nil_of_ne sep hsep]
      · simp [hb]
  | cons x cs ih =>
    intro h fuel rev
    have hcs : ¬ sep <:+: cs := by
      intro ⟨s, t, hst⟩
      exact h ⟨x :: s, t, by rw [← hst]; rfl⟩
    cases fuel with
    | zero => rfl
    | succ fuel =>
      rw [subAux_succ]
      by_cases hb : pat.isPrefixOf rev
      · rw [if_pos hb, findClose_none_of_no_close hsep (x :: cs) h]
        exact congrArg (fun l => x :: l) (ih hcs fuel (x :: rev))
      · rw [if_neg hb]
        exact congrArg (fun l => x :: l) (ih hcs fuel (x :: rev))

theorem subAux_keeps_tail {pat sep red tail : List Char} (htail : ¬ sep <:+: tail) :
    ∀ fuel mid rev, ∃ res, subAux pat sep red fuel rev (mid ++ tail) = res ++ tail := by
  have hsep : sep ≠ [] := by
    intro hs
    exact htail ⟨[], tail, by simp [hs]⟩
  intro fuel
  induction fuel with
  | zero => intro mid rev; exact ⟨mid, rfl⟩
  | succ fuel ih =>
    intro mid rev
    cases mid with
    | nil =>
      refine ⟨[], ?_⟩
      simpa using subAux_id_of_no_close hsep tail htail (fuel + 1) rev
    | cons x mid =>
      have hdropSplit : ∀ m, m ≤ (x :: mid).length →
          List.drop m (x :: (mid ++ tail)) = (x :: mid).drop m ++ tail := by
        intro m hm
        rw [← List.cons_append]
        exact List.drop_append_of_le_length hm
      have hbound : ∀ m, sep.isPrefixOf ((x :: (mid ++ tail)).drop m) = true →
          m ≤ (x :: mid).length := by
        intro m hpm
        by_contra hgt
        push_neg at hgt
        rw [← List.cons_append, List.drop_append_eq_append_drop,
          List.drop_eq_nil_of_le (by omega), List.nil_append] at hpm
        exact htail (infix_of_isPrefixOf_drop hpm)
      show ∃ res, subAux pat sep red (fuel + 1) rev (x :: (mid ++ tail)) = res ++ tail
      rw [subAux_succ]
      by_cases hb : pat.isPrefixOf rev
      · rw [if_pos hb]
        cases hfc : findClose sep (x :: (mid ++ tail)) with
        | none =>
          simp only [hfc]
          obtain ⟨res, hres⟩ := ih mid (x :: rev)
          exact ⟨x :: res, by rw [hres]; rfl⟩
        | some k =>
          cases k with
          | zero =>
            cases hf1 : findClose1 sep (x :: (mid ++ tail)) with
            | none =>
              simp only [hfc, hf1]
              obtain ⟨res, hres⟩ := ih mid (x :: rev)
              exact ⟨red ++ x :: res, by rw [hres]; simp [List.append_assoc]⟩
            | some m =>
              simp only [hfc, hf1]
              have hmle : m ≤ (x :: mid).length :=
                hbound m (findClose1_isPrefixOf_drop sep _ m hf1)
              rw [hdropSplit m hmle]
              obtain ⟨res, hres⟩ :=
                ih ((x :: mid).drop m) (((x :: (mid ++ tail)).take m).reverse ++ rev)
              exact ⟨red ++ red ++ res, by rw [hres]; simp [List.append_assoc]⟩
          | succ m =>
            simp only [hfc]
            have hmle : m + 1 ≤ (x :: mid).length :=
              hbound (m + 1) (findClose_isPrefixOf_drop sep _ (m + 1) hfc)
            rw [hdropSplit (m + 1) hmle]
            obtain ⟨res, hres⟩ :=
              ih ((x :: mid).drop (m + 1)) (((x :: (mid ++ tail)).take (m + 1)).reverse ++ rev)
            exact ⟨red ++ res, by rw [hres]; simp [List.append_assoc]⟩
      · rw [if_neg hb]
        obtain ⟨res, hres⟩ := ih mid (x :: rev)
        refine ⟨x :: res, ?_⟩
        show x :: subAux pat sep red fuel (x :: rev) (mid ++ tail) = x :: res ++ tail
        rw [hres, List.cons_append]

theorem reSub_keeps_tail {sep tail : List Char} (field red mid : List Char)
    (htail : ¬ sep <:+: tail) :
    ∃ res, reSub field sep red (mid ++ tail) = res ++ tail :=
  subAux_keeps_tail htail _ mid []

theorem filter_datum_keeps_tail {sep tail : List Char} (fields : List (List Char))
    (red : List Char) (htail : ¬ sep <:+: tail) :
    ∀ mid, ∃ res, filter_datum fields red (mid ++ tail) sep = res ++ tail := by
  induction fields with
  | nil => intro mid; exact ⟨mid, rfl⟩
  | cons f fs ih =>
    intro mid
    obtain ⟨res₁, hres₁⟩ := reSub_keeps_tail f red mid htail
    show (∃ res, List.foldl (fun msg field => reSub field sep red msg)
      (reSub f sep red (mid ++ tail)) fs = res ++ tail)
    rw [hres₁]
    exact ih res₁

theorem subAuxO_succ (pat sep red : List Char) (fuel : Nat) (rev rest : List Char) :
    subAuxO pat sep red (fuel + 1) rev rest =
      if pat.isPrefixOf rev then
        match findClose sep rest with
        | some 0 =>
          match findClose1 sep rest with
          | some k =>
            (subAuxO pat sep red fuel ((rest.take k).reverse ++ rev) (rest.drop k)).map
              (fun r => red ++ red ++ r)
          | none =>
            match rest with
            | [] => some red
            | x :: cs => (subAuxO pat sep red fuel (x :: rev) cs).map (fun r => red ++ x :: r)
        | some (k + 1) =>
          (subAuxO pat sep red fuel ((rest.take (k + 1)).reverse ++ rev) (rest.drop (k + 1))).map
            (fun r => red ++ r)
        | none =>
          match rest with
          | [] => some []
          | x :: cs => (subAuxO pat sep red fuel (x :: rev) cs).map (fun r => x :: r)
      else
        match rest with
        | [] => some []
        | x :: cs => (subAuxO pat sep red fuel (x :: rev) cs).map (fun r => x :: r) := rfl

theorem subAuxO_eq_some (pat sep red : List Char) :
    ∀ fuel rev rest, rest.length < fuel →
      subAuxO pat sep red fuel rev rest = some (subAux pat sep red fuel rev rest) := by
  intro fuel
  induction fuel with
  | zero => intro rev rest h; omega
  | succ fuel ih =>
    intro rev rest h
    rw [subAuxO_succ, subAux_succ]
    by_cases hb : pat.isPrefixOf rev
    · rw [if_pos hb, if_pos hb]
      cases hfc : findClose sep rest with
      | none =>
        simp only [hfc]
        cases rest with
        | nil => rfl
        | cons x cs =>
          simp only [List.length_cons] at h
          simp [ih (x :: rev) cs (by omega)]
      | some k =>
        cases k with
        | zero =>
          cases hf1 : findClose1 sep rest with
          | none =>
            simp only [hfc, hf1]
            cases rest with
            | nil => rfl
            | cons x cs =>
              simp only [List.length_cons] at h
              simp [ih (x :: rev) cs (by omega)]
          | some m =>
            simp only [hfc, hf1]
            have hm : 1 ≤ m := findClose1_pos hf1
            have hne : rest ≠ [] := by
              intro hr; subst hr; rw [findClose1_nil] at hf1; exact Option.noConfusion hf1
            have hlen : (rest.drop m).length < fuel := by
              rw [List.length_drop]
              cases rest with
              | nil => exact absurd rfl hne
              | cons y ys => simp only [List.length_cons] at h; simp only [List.length_cons]; omega
            rw [ih ((rest.take m).reverse ++ rev) (rest.drop m) hlen]
            rfl
        | succ m =>
          simp only [hfc]
          have hne : rest ≠ [] := findClose_some_ne_nil hfc
          have hlen : (rest.drop (m + 1)).length < fuel := by
            rw [List.length_drop]
            cases rest with
            | nil => exact absurd rfl hne
            | cons y ys => simp only [List.length_cons] at h; simp only [List.length_cons]; omega
          rw [ih ((rest.take (m + 1)).reverse ++ rev) (rest.drop (m + 1)) hlen]
          rfl
    · rw [if_neg hb, if_neg hb]
      cases rest with
      | nil => rfl
      | cons x cs =>
        simp only [List.length_cons] at h
        simp [ih (x :: rev) cs (by omega)]

theorem reSubO_eq_some (field sep red msg : List Char) :
    reSubO field sep red msg = some (reSub field sep red msg) :=
  subAuxO_eq_some ((field ++ sep).reverse) sep red (msg.length + 1) [] msg (Nat.lt_succ_self _)

theorem filter_datumO_eq_some (fields : List (List Char)) (red msg sep : List Char) :
    filter_datumO fields red msg sep = some (filter_datum fields red msg sep) := by
  induction fields generalizing msg with
  | nil => rfl
  | cons f fs ih =>
    show List.foldl (fun acc field => acc.bind (reSubO field sep red))
      ((some msg).bind (reSubO f sep red)) fs = _
    rw [Option.some_bind, reSubO_eq_some]
    exact ih (reSub f sep red msg)

theorem joinSep_cons (c : Char) (p : List Char) {ps : List (List Char)} (h : ps ≠ []) :
    joinSep c (p :: ps) = p ++ c :: joinSep c ps := by
  cases ps with
  | nil => exact absurd rfl h
  | cons q rest => rfl

theorem joinSep_cons_cons (c : Char) (x : Char) (p : List Char) (ps : List (List Char)) :
    joinSep c ((x :: p) :: ps) = x :: joinSep c (p :: ps) := by
  cases ps with
  | nil => rfl
  | cons q rest => rfl

theorem joinSep_splitSep (c : Char) : ∀ l, joinSep c (splitSep c l) = l := by
  intro l
  induction l with
  | nil => rfl
  | cons x xs ih =>
    by_cases hx : x = c
    · have hsplit : splitSep c (x :: xs) = [] :: splitSep c xs := by
        simp [splitSep, splitSepH, hx]
      rw [hsplit, joinSep_cons c [] (by simp [splitSep]), List.nil_append, ih, hx]
    · have hsplit : splitSep c (x :: xs) = (x :: (splitSepH c xs).1) :: (splitSepH c xs).2 := by
        simp [splitSep, splitSepH, hx]
      rw [hsplit, joinSep_cons_cons]
      show x :: joinSep c (splitSep c xs) = x :: xs
      rw [ih]

theorem splitSep_no_c (c : Char) : ∀ l, ∀ p ∈ splitSep c l, c ∉ p := by
  intro l
  induction l with
  | nil =>
    intro p hp
    simp [splitSep, splitSepH] at hp
    simp [hp]
  | cons x xs ih =>
    intro p hp
    by_cases hx : x = c
    · subst hx
      simp only [splitSep, splitSepH, if_pos rfl] at hp
      rcases List.mem_cons.mp hp with h | h
      · simp [h]
      · exact ih p (by simpa [splitSep] using h)
    · simp only [splitSep, splitSepH, if_neg hx] at hp
      rcases List.mem_cons.mp hp with h | h
      · subst h
        intro hc
        rcases List.mem_cons.mp hc with h | h
        · exact hx h.symm
        · exact ih (splitSepH c xs).1 (by simp [splitSep]) h
      · exact ih p (by simp [splitSep, h])

theorem not_isPrefixOf_cons_of_ne {c z : Char} (pt zs : List Char) (h : z ≠ c) :
    (c :: pt).isPrefixOf (z :: zs) = false := by
  have hcz : (c == z) = false := by
    simp only [beq_eq_false_iff_ne, ne_eq]
    exact fun hh => h hh.symm
  show ((c == z) && pt.isPrefixOf zs) = false
  rw [hcz, Bool.false_and]

theorem runScan_copy_seg {c : Char} {pt : List Char} (red : List Char) :
    ∀ u rest rev, (c ∉ u) →
      ((c :: pt).isPrefixOf rev = false ∨ findClose [c] (u ++ rest) = none) →
      runScan (c :: pt) [c] red rev (u ++ rest) =
        u ++ runScan (c :: pt) [c] red (u.reverse ++ rev) rest := by
  intro u
  induction u with
  | nil =>
    intro rest rev _ _
    simp
  | cons x u ih =>
    intro rest rev hcu hd
    have hx : x ≠ c := fun h => hcu (h ▸ List.mem_cons_self x u)
    have step : runScan (c :: pt) [c] red rev (x :: (u ++ rest)) =
        x :: runScan (c :: pt) [c] red (x :: rev) (u ++ rest) := by
      rcases hd with hb | hfc
      · exact runScan_copy [c] red x (u ++ rest) hb
      · by_cases hb : (c :: pt).isPrefixOf rev
        · exact runScan_copy₂ red x (u ++ rest) hb hfc
        · refine runScan_copy [c] red x (u ++ rest) ?_
          revert hb
          cases (c :: pt).isPrefixOf rev <;> simp
    have hcu₂ : c ∉ u := fun h => hcu (List.mem_cons_of_mem x h)
    have hrec := ih rest (x :: rev) hcu₂
      (Or.inl (not_isPrefixOf_cons_of_ne pt rev hx))
    show runScan (c :: pt) [c] red rev (x :: (u ++ rest)) =
      x :: (u ++ runScan (c :: pt) [c] red ((x :: u).reverse ++ rev) rest)
    rw [step, hrec, List.reverse_cons, List.append_assoc]
    rfl

theorem findClose_seg_close {c : Char} :
    ∀ p : List Char, c ∉ p → noNL p = true →
      ∀ r, findClose [c] (p ++ c :: r) = some p.length := by
  intro p
  induction p with
  | nil =>
    intro _ _ r
    have : ([c] : List Char).isPrefixOf (c :: r) = true := by
      show ((c == c) && List.isPrefixOf [] r) = true
      simp [List.isPrefixOf]
    simp [findClose, this]
  | cons x p ih =>
    intro hfree hnl r
    have hx : x ≠ c := fun h => hfree (h ▸ List.mem_cons_self x p)
    have hnlx : x ≠ '\n' := by
      simp only [noNL, List.all_cons, Bool.and_eq_true, bne_iff_ne, ne_eq] at hnl
      exact hnl.1
    have hnl₂ : noNL p = true := by
      simp only [noNL, List.all_cons, Bool.and_eq_true] at hnl
      exact hnl.2
    have hfree₂ : c ∉ p := fun h => hfree (List.mem_cons_of_mem x h)
    show findClose [c] (x :: (p ++ c :: r)) = some (p.length + 1)
    simp only [findClose, not_isPrefixOf_cons_of_ne [] (p ++ c :: r) hx,
      Bool.false_eq_true, if_false, hnlx, ih hfree₂ hnl₂ r, Option.map_some']

theorem findClose_seg_newline {c : Char} :
    ∀ p : List Char, c ∉ p → noNL p = false →
      ∀ r, findClose [c] (p ++ r) = none := by
  intro p
  induction p with
  | nil => intro _ h; simp [noNL] at h
  | cons x p ih =>
    intro hfree hnl r
    have hx : x ≠ c := fun h => hfree (h ▸ List.mem_cons_self x p)
    have hfree₂ : c ∉ p := fun h => hfree (List.mem_cons_of_mem x h)
    show findClose [c] (x :: (p ++ r)) = none
    by_cases hnlx : x = '\n'
    · subst hnlx
      simp [findClose, not_isPrefixOf_cons_of_ne [] (p ++ r) hx]
    · have hnl₂ : noNL p = false := by
        simp only [noNL, List.all_cons] at hnl
        rcases Bool.and_eq_false_iff.mp hnl with h | h
        · exact absurd (by simpa using h) (by simpa using hnlx)
        · exact h
      simp only [findClose, not_isPrefixOf_cons_of_ne [] (p ++ r) hx,
        Bool.false_eq_true, if_false, hnlx, ih hfree₂ hnl₂ r, Option.map_none']

theorem findClose_seg_last {c : Char} :
    ∀ p : List Char, c ∉ p → findClose [c] p = none := by
  intro p
  induction p with
  | nil => intro _; exact findClose_nil_of_ne [c] (by simp)
  | cons x p ih =>
    intro hfree
    have hx : x ≠ c := fun h => hfree (h ▸ List.mem_cons_self x p)
    have hfree₂ : c ∉ p := fun h => hfree (List.mem_cons_of_mem x h)
    by_cases hnlx : x = '\n'
    · subst hnlx
      simp [findClose, not_isPrefixOf_cons_of_ne [] p hx]
    · simp only [findClose, not_isPrefixOf_cons_of_ne [] p hx,
        Bool.false_eq_true, if_false, hnlx, ih hfree₂, Option.map_none']

-- ### Evaluating the lookbehind at a segment start

/-- At a segment start the lookbehind window is the separator followed by
the reversed previous segment (and older text starting with another
separator, or nothing).  For a field free of the separator the boundary
holds exactly when the field is a suffix of the previous segment. -/
theorem bd_eval {field prev w : List Char} {c : Char} (hcf : c ∉ field)
    (hw : w = [] ∨ ∃ wt, w = c :: wt) :
    (c :: field.reverse).isPrefixOf (c :: (prev.reverse ++ w)) = field.isSuffixOf prev := by
  have hred : (c :: field.reverse).isPrefixOf (c :: (prev.reverse ++ w)) =
      field.reverse.isPrefixOf (prev.reverse ++ w) := by
    show ((c == c) && field.reverse.isPrefixOf (prev.reverse ++ w)) = _
    simp
  rw [hred]
  cases hs : field.isSuffixOf prev with
  | true =>
    have hsuf : field <:+ prev := List.isSuffixOf_iff_suffix.mp hs
    have hpre : field.reverse <+: prev.reverse := List.reverse_prefix.mpr hsuf
    exact List.isPrefixOf_iff_prefix.mpr (hpre.trans (List.prefix_append _ w))
  | false =>
    cases hp : field.reverse.isPrefixOf (prev.reverse ++ w) with
    | false => rfl
    | true =>
      exfalso
      have hpre : field.reverse <+: prev.reverse ++ w := List.isPrefixOf_iff_prefix.mp hp
      by_cases hlen : field.length ≤ prev.length
      · have h1 : field.reverse = (prev.reverse ++ w).take field.reverse.length :=
          List.prefix_iff_eq_take.mp hpre
        have h2 : (prev.reverse ++ w).take field.reverse.length =
            prev.reverse.take field.reverse.length :=
          List.take_append_of_le_length (by simpa using hlen)
        have h3 : field.reverse <+: prev.reverse := by
          rw [h1, h2]
          exact ⟨prev.reverse.drop field.reverse.length, List.take_append_drop _ _⟩
        have h4 : field <:+ prev := List.reverse_prefix.mp h3
        exact absurd (List.isSuffixOf_iff_suffix.mpr h4) (by simp [hs])
      · push_neg at hlen
        rcases hw with hw | ⟨wt, hw⟩
        · subst hw
          have hle := hpre.length_le
          simp at hle
          omega
        · subst hw
          obtain ⟨t, ht⟩ := hpre
          have h2 : (field.reverse ++ t).take (prev.length + 1) =
              field.reverse.take (prev.length + 1) :=
            List.take_append_of_le_length (by simp; omega)
          have h3 : (prev.reverse ++ c :: wt).take (prev.length + 1) =
              prev.reverse ++ [c] := by
            have hp1 : prev.length + 1 = prev.reverse.length + 1 := by simp
            rw [hp1, List.take_append]
            simp
          have hc : c ∈ field.reverse.take (prev.length + 1) := by
            rw [← h2, ht, h3]
            simp
          exact hcf (List.mem_reverse.mp (List.take_subset _ _ hc))

-- ### Characterization: the scan acts segment-wise

theorem bd_false_after_seg {c : Char} {pt p rev : List Char} (hpne : p ≠ []) (hfree : c ∉ p) :
    (c :: pt).isPrefixOf (p.reverse ++ rev) = false := by
  cases hrev : p.reverse with
  | nil =>
    exact absurd (by simpa using congrArg List.reverse hrev) hpne
  | cons y ys =>
    have hy : y ∈ p := List.mem_reverse.mp (by rw [hrev]; exact List.mem_cons_self y ys)
    have hyne : y ≠ c := fun h => hfree (h ▸ hy)
    exact not_isPrefixOf_cons_of_ne pt (ys ++ rev) hyne

theorem redactSegsAux_ne_nil (field red prev : List Char) (q : List Char)
    (rest : List (List Char)) : redactSegsAux field red prev (q :: rest) ≠ [] := by
  cases rest with
  | nil => simp [redactSegsAux]
  | cons r t => simp [redactSegsAux]

theorem runScan_eq_segsAux {field red : List Char} {c : Char} (hcf : c ∉ field) :
    ∀ parts prev w,
      (w = [] ∨ ∃ wt, w = c :: wt) →
      (∀ p ∈ parts, c ∉ p) →
      noEmptySeg parts = true →
      runScan (c :: field.reverse) [c] red (c :: (prev.reverse ++ w)) (joinSep c parts) =
        joinSep c (redactSegsAux field red prev parts) := by
  intro parts
  induction parts with
  | nil =>
    intro prev w _ _ _
    exact runScan_nil _ _ _ _ (by simp)
  | cons p ps ih =>
    intro prev w hw hfree hne
    have hfp : c ∉ p := hfree p (List.mem_cons_self p ps)
    cases ps with
    | nil =>
      show runScan (c :: field.reverse) [c] red (c :: (prev.reverse ++ w)) (joinSep c [p]) = p
      have hdisj : (c :: field.reverse).isPrefixOf (c :: (prev.reverse ++ w)) = false ∨
          findClose [c] (p ++ []) = none := by
        cases hbd : (c :: field.reverse).isPrefixOf (c :: (prev.reverse ++ w)) with
        | false => exact Or.inl rfl
        | true => exact Or.inr (by rw [List.append_nil]; exact findClose_seg_last p hfp)
      have h := runScan_copy_seg red p [] (c :: (prev.reverse ++ w)) hfp hdisj
      rw [List.append_nil] at h
      show runScan (c :: field.reverse) [c] red (c :: (prev.reverse ++ w)) p = p
      rw [h, runScan_nil _ _ _ _ (by simp), List.append_nil]
    | cons q rest =>
      have hpne : p ≠ [] := by
        intro hp
        subst hp
        simp [noEmptySeg] at hne
      have hne₂ : noEmptySeg (q :: rest) = true := by
        have := hne
        simp only [noEmptySeg, Bool.and_eq_true] at this
        exact this.2
      have hfree₂ : ∀ r ∈ q :: rest, c ∉ r := fun r hr => hfree r (List.mem_cons_of_mem p hr)
      have hbdv : (c :: field.reverse).isPrefixOf (c :: (prev.reverse ++ w)) =
          field.isSuffixOf prev := bd_eval hcf hw
      have hZ : redactSegsAux field red prev (p :: q :: rest) =
          (if field.isSuffixOf prev && noNL p then red else p) ::
            redactSegsAux field red p (q :: rest) := rfl
      have hJcons : joinSep c (p :: q :: rest) = p ++ c :: joinSep c (q :: rest) := rfl
      have hihw : (joinSep c (q :: rest) : List Char) = joinSep c (q :: rest) := rfl
      -- the state after copying or matching segment `p` and its separator
      have hafter : ∀ rv : List Char,
          runScan (c :: field.reverse) [c] red (p.reverse ++ rv) (c :: joinSep c (q :: rest)) =
            c :: runScan (c :: field.reverse) [c] red (c :: (p.reverse ++ rv))
              (joinSep c (q :: rest)) := fun rv =>
        runScan_copy [c] red c (joinSep c (q :: rest)) (bd_false_after_seg hpne hfp)
      have hIH : ∀ rv : List Char, (rv = [] ∨ ∃ wt, rv = c :: wt) →
          runScan (c :: field.reverse) [c] red (c :: (p.reverse ++ rv))
            (joinSep c (q :: rest)) = joinSep c (redactSegsAux field red p (q :: rest)) :=
        fun rv hrv => ih p rv hrv hfree₂ hne₂
      rw [hZ, hJcons, joinSep_cons c _ (redactSegsAux_ne_nil field red p q rest)]
      cases hsuf : field.isSuffixOf prev with
      | false =>
        have hbd : (c :: field.reverse).isPrefixOf (c :: (prev.reverse ++ w)) = false := by
          rw [hbdv, hsuf]
        have h := runScan_copy_seg red p (c :: joinSep c (q :: rest))
          (c :: (prev.reverse ++ w)) hfp (Or.inl hbd)
        rw [h, hafter, hIH (c :: (prev.reverse ++ w)) (Or.inr ⟨_, rfl⟩)]
        simp [hsuf]
      | true =>
        cases hnl : noNL p with
        | false =>
          have hclose : findClose [c] (p ++ c :: joinSep c (q :: rest)) = none :=
            findClose_seg_newline p hfp hnl (c :: joinSep c (q :: rest))
          have h := @runScan_copy_seg c field.reverse red p (c :: joinSep c (q :: rest))
            (c :: (prev.reverse ++ w)) hfp (Or.inr hclose)
          rw [h, hafter, hIH (c :: (prev.reverse ++ w)) (Or.inr ⟨_, rfl⟩)]
          simp [hsuf, hnl]
        | true =>
          obtain ⟨p₀, p₁, rfl⟩ := List.exists_cons_of_ne_nil hpne
          have hbd : (c :: field.reverse).isPrefixOf (c :: (prev.reverse ++ w)) = true := by
            rw [hbdv, hsuf]
          have hclose : findClose [c] ((p₀ :: p₁) ++ c :: joinSep c (q :: rest)) =
              some (p₁.length + 1) := by
            have := findClose_seg_close (p₀ :: p₁) hfp hnl (joinSep c (q :: rest))
            simpa using this
          have h := @runScan_match (c :: field.reverse) [c] (c :: (prev.reverse ++ w))
            ((p₀ :: p₁) ++ c :: joinSep c (q :: rest)) red p₁.length hbd hclose
          have htake : ((p₀ :: p₁) ++ c :: joinSep c (q :: rest)).take (p₁.length + 1) =
              p₀ :: p₁ := by
            have : p₁.length + 1 = (p₀ :: p₁).length := rfl
            rw [this, List.take_left]
          have hdrop : ((p₀ :: p₁) ++ c :: joinSep c (q :: rest)).drop (p₁.length + 1) =
              c :: joinSep c (q :: rest) := by
            have : p₁.length + 1 = (p₀ :: p₁).length := rfl
            rw [this, List.drop_left]
          rw [htake, hdrop] at h
          rw [h, hafter, hIH (c :: (prev.reverse ++ w)) (Or.inr ⟨_, rfl⟩)]
          simp [hsuf, hnl]

theorem runScan_eq_segs {field red : List Char} {c : Char} (hcf : c ∉ field) :
    ∀ parts, (∀ p ∈ parts, c ∉ p) → noEmptySeg parts = true →
      runScan (c :: field.reverse) [c] red [] (joinSep c parts) =
        joinSep c (redactSegs field red parts) := by
  intro parts hfree hne
  cases parts with
  | nil => exact runScan_nil _ _ _ _ (by simp)
  | cons p ps =>
    have hfp : c ∉ p := hfree p (List.mem_cons_self p ps)
    have hbd0 : (c :: field.reverse).isPrefixOf ([] : List Char) = false := rfl
    cases ps with
    | nil =>
      show runScan (c :: field.reverse) [c] red [] (joinSep c [p]) = joinSep c [p]
      have h := runScan_copy_seg red p [] [] hfp (Or.inl hbd0)
      rw [List.append_nil] at h
      show runScan (c :: field.reverse) [c] red [] p = p
      rw [h, runScan_nil _ _ _ _ (by simp), List.append_nil]
    | cons q rest =>
      have hpne : p ≠ [] := by
        intro hp
        subst hp
        simp [noEmptySeg] at hne
      have hne₂ : noEmptySeg (q :: rest) = true := by
        have := hne
        simp only [noEmptySeg, Bool.and_eq_true] at this
        exact this.2
      have hfree₂ : ∀ r ∈ q :: rest, c ∉ r := fun r hr => hfree r (List.mem_cons_of_mem p hr)
      have hJcons : joinSep c (p :: q :: rest) = p ++ c :: joinSep c (q :: rest) := rfl
      have h := runScan_copy_seg red p (c :: joinSep c (q :: rest)) [] hfp (Or.inl hbd0)
      have hafter : runScan (c :: field.reverse) [c] red (p.reverse ++ [])
          (c :: joinSep c (q :: rest)) =
          c :: runScan (c :: field.reverse) [c] red (c :: (p.reverse ++ []))
            (joinSep c (q :: rest)) :=
        runScan_copy [c] red c (joinSep c (q :: rest)) (bd_false_after_seg hpne hfp)
      have hIH := @runScan_eq_segsAux field red c hcf (q :: rest) p [] (Or.inl rfl) hfree₂ hne₂
      show runScan (c :: field.reverse) [c] red [] (joinSep c (p :: q :: rest)) =
        joinSep c (p :: redactSegsAux field red p (q :: rest))
      rw [hJcons, h, hafter, hIH,
        joinSep_cons c _ (redactSegsAux_ne_nil field red p q rest)]

theorem reSub_eq_segs {field red : List Char} {c : Char} (hcf : c ∉ field)
    (parts : List (List Char)) (hfree : ∀ p ∈ parts, c ∉ p) (hne : noEmptySeg parts = true) :
    reSub field [c] red (joinSep c parts) = joinSep c (redactSegs field red parts) := by
  rw [reSub_eq_runScan]
  have hpat : (field ++ [c]).reverse = c :: field.reverse := by simp
  rw [hpat]
  exact runScan_eq_segs hcf parts hfree hne

-- ### Composing the passes over all fields

theorem filter_datum_cons (f : List Char) (fs : List (List Char)) (red msg sep : List Char) :
    filter_datum (f :: fs) red msg sep = filter_datum fs red (reSub f sep red msg) sep := rfl

theorem redactAll_cons (f : List Char) (fs : List (List Char)) (red : List Char)
    (parts : List (List Char)) :
    redactAll (f :: fs) red parts = redactAll fs red (redactSegs f red parts) := rfl

theorem redactSegsAux_forall₂ (field red : List Char) :
    ∀ parts prev, List.Forall₂ (fun p r => r = p ∨ r = red) parts
      (redactSegsAux field red prev parts) := by
  intro parts
  induction parts with
  | nil => intro prev; exact List.Forall₂.nil
  | cons p ps ih =>
    intro prev
    cases ps with
    | nil => exact List.Forall₂.cons (Or.inl rfl) List.Forall₂.nil
    | cons q rest =>
      refine List.Forall₂.cons ?_ (ih p)
      by_cases hcond : (field.isSuffixOf prev && noNL p) = true
      · rw [if_pos hcond]; exact Or.inr rfl
      · rw [if_neg hcond]; exact Or.inl rfl

theorem redactSegs_forall₂ (field red : List Char) (parts : List (List Char)) :
    List.Forall₂ (fun p r => r = p ∨ r = red) parts (redactSegs field red parts) := by
  cases parts with
  | nil => exact List.Forall₂.nil
  | cons p ps => exact List.Forall₂.cons (Or.inl rfl) (redactSegsAux_forall₂ field red ps p)

theorem forall₂_red_trans {red : List Char} :
    ∀ {xs ys zs : List (List Char)},
      List.Forall₂ (fun p r => r = p ∨ r = red) xs ys →
      List.Forall₂ (fun p r => r = p ∨ r = red) ys zs →
      List.Forall₂ (fun p r => r = p ∨ r = red) xs zs := by
  intro xs ys zs h₁
  induction h₁ generalizing zs with
  | nil => intro h₂; cases h₂; exact List.Forall₂.nil
  | cons hpr htail ih =>
    intro h₂
    cases h₂ with
    | cons hqs htail₂ =>
      refine List.Forall₂.cons ?_ (ih htail₂)
      rcases hqs with h | h
      · subst h; exact hpr
      · exact Or.inr h

theorem mem_of_forall₂ {red : List Char} :
    ∀ {parts₁ parts₂ : List (List Char)},
      List.Forall₂ (fun p r => r = p ∨ r = red) parts₁ parts₂ →
      ∀ r ∈ parts₂, r ∈ parts₁ ∨ r = red := by
  intro parts₁ parts₂ h
  induction h with
  | nil => intro r hr; simp at hr
  | cons hpr htail ih =>
    intro r hr
    rcases List.mem_cons.mp hr with h1 | h1
    · subst h1
      rcases hpr with h2 | h2
      · exact Or.inl (h2 ▸ List.mem_cons_self _ _)
      · exact Or.inr h2
    · rcases ih r h1 with h2 | h2
      · exact Or.inl (List.mem_cons_of_mem _ h2)
      · exact Or.inr h2

theorem noEmptySeg_of_forall₂ {red : List Char} (hred : red ≠ []) :
    ∀ {parts₁ parts₂ : List (List Char)},
      List.Forall₂ (fun p r => r = p ∨ r = red) parts₁ parts₂ →
      noEmptySeg parts₁ = true → noEmptySeg parts₂ = true := by
  intro parts₁
  induction parts₁ with
  | nil =>
    intro parts₂ h _
    cases h
    rfl
  | cons p ps ih =>
    intro parts₂ h hne
    cases h with
    | cons hpr htail =>
      cases ps with
      | nil =>
        cases htail
        rfl
      | cons q rest =>
        cases htail with
        | cons hqr htail₂ =>
          have hpne : p ≠ [] := by
            intro hp
            subst hp
            simp [noEmptySeg] at hne
          have hne₂ : noEmptySeg (q :: rest) = true := by
            simp only [noEmptySeg, Bool.and_eq_true] at hne
            exact hne.2
          have hbne : ∀ b : List Char, (b = p ∨ b = red) → b ≠ [] := by
            intro b hb
            rcases hb with h | h
            · exact h ▸ hpne
            · exact h ▸ hred
          show noEmptySeg (_ :: _ :: _) = true
          simp only [noEmptySeg, Bool.and_eq_true, Bool.not_eq_true', List.isEmpty_eq_false]
          exact ⟨hbne _ hpr, ih (List.Forall₂.cons hqr htail₂) hne₂⟩

theorem filter_datum_eq_segs {c : Char} {red : List Char} (hcr : c ∉ red) (hred : red ≠ []) :
    ∀ fields : List (List Char), (∀ f ∈ fields, c ∉ f) →
      ∀ parts, (∀ p ∈ parts, c ∉ p) → noEmptySeg parts = true →
        filter_datum fields red (joinSep c parts) [c] =
          joinSep c (redactAll fields red parts) := by
  intro fields
  induction fields with
  | nil => intro _ parts _ _; rfl
  | cons f fs ih =>
    intro hcf parts hfree hne
    have h1 : reSub f [c] red (joinSep c parts) = joinSep c (redactSegs f red parts) :=
      reSub_eq_segs (hcf f (List.mem_cons_self f fs)) parts hfree hne
    rw [filter_datum_cons, h1, redactAll_cons]
    have hf₂ := redactSegs_forall₂ f red parts
    refine ih (fun g hg => hcf g (List.mem_cons_of_mem f hg)) (redactSegs f red parts) ?_
      (noEmptySeg_of_forall₂ hred hf₂ hne)
    intro r hr
    rcases mem_of_forall₂ hf₂ r hr with h | h
    · exact hfree r h
    · exact h ▸ hcr

-- ### Splitting is inverse to joining on separator-free segments

theorem splitSep_single {c : Char} : ∀ p : List Char, c ∉ p → splitSep c p = [p] := by
  intro p
  induction p with
  | nil => intro _; rfl
  | cons x xs ih =>
    intro h
    have hx : x ≠ c := fun hh => h (hh ▸ List.mem_cons_self x xs)
    have htail := ih (fun hm => h (List.mem_cons_of_mem _ hm))
    have h1 : (splitSepH c xs).1 = xs ∧ (splitSepH c xs).2 = [] := by
      have := htail
      simp only [splitSep, List.cons.injEq] at this
      exact this
    simp [splitSep, splitSepH, hx, h1.1, h1.2]

theorem splitSep_append {c : Char} : ∀ p r : List Char, c ∉ p →
    splitSep c (p ++ c :: r) = p :: splitSep c r := by
  intro p
  induction p with
  | nil =>
    intro r _
    simp [splitSep, splitSepH]
  | cons x xs ih =>
    intro r h
    have hx : x ≠ c := fun hh => h (hh ▸ List.mem_cons_self x xs)
    have htail := ih r (fun hm => h (List.mem_cons_of_mem _ hm))
    have h1 : (splitSepH c (xs ++ c :: r)).1 = xs ∧
        (splitSepH c (xs ++ c :: r)).2 = splitSep c r := by
      have := htail
      simp only [splitSep, List.cons.injEq] at this
      exact this
    show splitSep c (x :: (xs ++ c :: r)) = (x :: xs) :: splitSep c r
    simp [splitSep, splitSepH, hx, h1.1, h1.2]

theorem splitSep_joinSep {c : Char} : ∀ parts : List (List Char), parts ≠ [] →
    (∀ p ∈ parts, c ∉ p) → splitSep c (joinSep c parts) = parts := by
  intro parts
  induction parts with
  | nil => intro h _; exact absurd rfl h
  | cons p ps ih =>
    intro _ hfree
    cases ps with
    | nil => exact splitSep_single p (hfree p (List.mem_cons_self p []))
    | cons q rest =>
      show splitSep c (p ++ c :: joinSep c (q :: rest)) = p :: q :: rest
      rw [splitSep_append p _ (hfree p (List.mem_cons_self p (q :: rest))),
        ih (by simp) (fun r hr => hfree r (List.mem_cons_of_mem p hr))]

theorem mem_splitSep_subset {c : Char} :
    ∀ l : List Char, ∀ p ∈ splitSep c l, ∀ a ∈ p, a ∈ l := by
  intro l
  induction l with
  | nil =>
    intro p hp a ha
    simp only [splitSep, splitSepH, List.mem_cons] at hp
    rcases hp with h | h
    · subst h; simp at ha
    · simp at h
  | cons x xs ih =>
    intro p hp a ha
    by_cases hx : x = c
    · simp only [splitSep, splitSepH, if_pos hx] at hp
      rcases List.mem_cons.mp hp with h | h
      · subst h; simp at ha
      · exact List.mem_cons_of_mem x (ih p (by simpa [splitSep] using h) a ha)
    · simp only [splitSep, splitSepH, if_neg hx] at hp
      rcases List.mem_cons.mp hp with h | h
      · subst h
        rcases List.mem_cons.mp ha with h1 | h1
        · exact h1 ▸ List.mem_cons_self x xs
        · exact List.mem_cons_of_mem x (ih _ (by simp [splitSep]) a h1)
      · exact List.mem_cons_of_mem x (ih p (by simp [splitSep, h]) a ha)

theorem forall₂_red_refl {red : List Char} :
    ∀ xs : List (List Char), List.Forall₂ (fun p r => r = p ∨ r = red) xs xs := by
  intro xs
  induction xs with
  | nil => exact List.Forall₂.nil
  | cons x l ih => exact List.Forall₂.cons (Or.inl rfl) ih

theorem redactAll_forall₂ (red : List Char) :
    ∀ (fields : List (List Char)) (parts : List (List Char)),
      List.Forall₂ (fun p r => r = p ∨ r = red) parts (redactAll fields red parts) := by
  intro fields
  induction fields with
  | nil => intro parts; exact forall₂_red_refl parts
  | cons f fs ih =>
    intro parts
    rw [redactAll_cons]
    exact forall₂_red_trans (redactSegs_forall₂ f red parts) (ih (redactSegs f red parts))

/-- The output of `filter_datum` splits segment-for-segment against the
input: same number of separators; each segment unchanged or replaced. -/
theorem filter_datum_forall₂ {c : Char} {red : List Char} (hcr : c ∉ red) (hred : red ≠ [])
    (fields : List (List Char)) (hcf : ∀ f ∈ fields, c ∉ f) (msg : List Char)
    (hne : noEmptySeg (splitSep c msg) = true) :
    List.Forall₂ (fun p r => r = p ∨ r = red) (splitSep c msg)
      (splitSep c (filter_datum fields red msg [c])) := by
  have hfree : ∀ p ∈ splitSep c msg, c ∉ p := splitSep_no_c c msg
  have h1 : filter_datum fields red msg [c] =
      joinSep c (redactAll fields red (splitSep c msg)) := by
    conv_lhs => rw [← joinSep_splitSep c msg]
    exact filter_datum_eq_segs hcr hred fields hcf (splitSep c msg) hfree hne
  have hf₂ := redactAll_forall₂ red fields (splitSep c msg)
  have hne₂ : redactAll fields red (splitSep c msg) ≠ [] := by
    intro h
    have := hf₂.length_eq
    rw [h] at this
    simp [splitSep] at this
  have hfree₂ : ∀ p ∈ redactAll fields red (splitSep c msg), c ∉ p := by
    intro p hp
    rcases mem_of_forall₂ hf₂ p hp with h | h
    · exact hfree p h
    · exact h ▸ hcr
  rw [h1, splitSep_joinSep _ hne₂ hfree₂]
  exact hf₂

theorem redactSegsAux_of_stableAux {field red : List Char} :
    ∀ ps prev, StableAux field red prev ps → redactSegsAux field red prev ps = ps := by
  intro ps
  induction ps with
  | nil => intro prev _; rfl
  | cons p ps ih =>
    intro prev hst
    cases ps with
    | nil => rfl
    | cons q rest =>
      obtain ⟨hhead, htail⟩ := hst
      show (if field.isSuffixOf prev && noNL p then red else p) ::
        redactSegsAux field red p (q :: rest) = p :: q :: rest
      rw [ih p htail]
      by_cases hcond : (field.isSuffixOf prev && noNL p) = true
      · rw [if_pos hcond]
        have h12 : field.isSuffixOf prev = true ∧ noNL p = true := by simpa using hcond
        rw [hhead h12.1 h12.2]
      · rw [if_neg hcond]

theorem redactSegs_of_stable {field red : List Char} {parts : List (List Char)}
    (hst : Stable field red parts) : redactSegs field red parts = parts := by
  cases parts with
  | nil => rfl
  | cons p ps =>
    show p :: redactSegsAux field red p ps = p :: ps
    rw [redactSegsAux_of_stableAux ps p hst]

theorem stableAux_redactSegsAux {field red : List Char}
    (hfr : field.isSuffixOf red = false) :
    ∀ ps prevO prevC, (prevC = prevO ∨ prevC = red) →
      StableAux field red prevC (redactSegsAux field red prevO ps) := by
  intro ps
  induction ps with
  | nil => intro prevO prevC _; trivial
  | cons p ps ih =>
    intro prevO prevC hinv
    cases ps with
    | nil => trivial
    | cons q rest =>
      show StableAux field red prevC
        ((if field.isSuffixOf prevO && noNL p then red else p) ::
          redactSegsAux field red p (q :: rest))
      have htail' := redactSegsAux_ne_nil field red p q rest
      cases htl : redactSegsAux field red p (q :: rest) with
      | nil => exact absurd htl htail'
      | cons t₀ t₁ =>
        refine ⟨?_, ?_⟩
        · intro hsufC hnl
          by_cases hcond : (field.isSuffixOf prevO && noNL p) = true
          · rw [if_pos hcond]
          · rw [if_neg hcond] at hnl ⊢
            rcases hinv with h | h
            · subst h
              exact absurd (by simp [hsufC, hnl]) hcond
            · subst h
              rw [hfr] at hsufC
              exact absurd hsufC (by simp)
        · have := ih p (if field.isSuffixOf prevO && noNL p then red else p)
            (by by_cases hcond : (field.isSuffixOf prevO && noNL p) = true
                · rw [if_pos hcond]; exact Or.inr rfl
                · rw [if_neg hcond]; exact Or.inl rfl)
          rw [htl] at this
          exact this

theorem stable_redactSegs {field red : List Char} (hfr : field.isSuffixOf red = false)
    (parts : List (List Char)) : Stable field red (redactSegs field red parts) := by
  cases parts with
  | nil => trivial
  | cons p ps =>
    show Stable field red (p :: redactSegsAux field red p ps)
    exact stableAux_redactSegsAux hfr ps p p (Or.inl rfl)

theorem stableAux_preserved {field red : List Char} (g : List Char)
    (hfr : field.isSuffixOf red = false) :
    ∀ ps prevO prevC, (prevC = prevO ∨ prevC = red) →
      StableAux field red prevO ps →
      StableAux field red prevC (redactSegsAux g red prevO ps) := by
  intro ps
  induction ps with
  | nil => intro prevO prevC _ _; trivial
  | cons p ps ih =>
    intro prevO prevC hinv hst
    cases ps with
    | nil => trivial
    | cons q rest =>
      obtain ⟨hhead, htail⟩ := hst
      show StableAux field red prevC
        ((if g.isSuffixOf prevO && noNL p then red else p) ::
          redactSegsAux g red p (q :: rest))
      have htail' := redactSegsAux_ne_nil g red p q rest
      cases htl : redactSegsAux g red p (q :: rest) with
      | nil => exact absurd htl htail'
      | cons t₀ t₁ =>
        refine ⟨?_, ?_⟩
        · intro hsufC hnl
          by_cases hcond : (g.isSuffixOf prevO && noNL p) = true
          · rw [if_pos hcond]
          · rw [if_neg hcond] at hnl ⊢
            rcases hinv with h | h
            · subst h
              exact hhead hsufC hnl
            · subst h
              rw [hfr] at hsufC
              exact absurd hsufC (by simp)
        · have := ih p (if g.isSuffixOf prevO && noNL p then red else p)
            (by by_cases hcond : (g.isSuffixOf prevO && noNL p) = true
                · rw [if_pos hcond]; exact Or.inr rfl
                · rw [if_neg hcond]; exact Or.inl rfl) htail
          rw [htl] at this
          exact this

theorem stable_preserved {field red : List Char} (g : List Char)
    (hfr : field.isSuffixOf red = false) {parts : List (List Char)}
    (hst : Stable field red parts) : Stable field red (redactSegs g red parts) := by
  cases parts with
  | nil => trivial
  | cons p ps =>
    show Stable field red (p :: redactSegsAux g red p ps)
    exact stableAux_preserved g hfr ps p p (Or.inl rfl) hst

theorem stable_redactAll_fold {field red : List Char} (hfr : field.isSuffixOf red = false) :
    ∀ (fs : List (List Char)) {parts : List (List Char)}, Stable field red parts →
      Stable field red (redactAll fs red parts) := by
  intro fs
  induction fs with
  | nil => intro parts h; exact h
  | cons g gs ih =>
    intro parts h
    rw [redactAll_cons]
    exact ih (stable_preserved g hfr h)

theorem stable_redactAll {field red : List Char} (hfr : field.isSuffixOf red = false) :
    ∀ (fields : List (List Char)), field ∈ fields → ∀ parts,
      Stable field red (redactAll fields red parts) := by
  intro fields
  induction fields with
  | nil => intro h; simp at h
  | cons f fs ih =>
    intro hmem parts
    rcases List.mem_cons.mp hmem with h | h
    · subst h
      rw [redactAll_cons]
      exact stable_redactAll_fold hfr fs (stable_redactSegs hfr parts)
    · rw [redactAll_cons]
      exact ih h (redactSegs f red parts)

theorem redactAll_of_stable {red : List Char} :
    ∀ (fields : List (List Char)) (parts : List (List Char)),
      (∀ f ∈ fields, Stable f red parts) → redactAll fields red parts = parts := by
  intro fields
  induction fields with
  | nil => intro parts _; rfl
  | cons f fs ih =>
    intro parts hst
    rw [redactAll_cons, redactSegs_of_stable (hst f (List.mem_cons_self f fs))]
    exact ih parts (fun g hg => hst g (List.mem_cons_of_mem f hg))

theorem redactAll_idem {red : List Char} (fields : List (List Char))
    (hfr : ∀ f ∈ fields, f.isSuffixOf red = false) (parts : List (List Char)) :
    redactAll fields red (redactAll fields red parts) = redactAll fields red parts :=
  redactAll_of_stable fields (redactAll fields red parts)
    (fun f hf => stable_redactAll (hfr f hf) fields hf parts)

theorem filter_datum_idem {c : Char} {red : List Char} (hcr : c ∉ red) (hred : red ≠ [])
    (fields : List (List Char)) (hcf : ∀ f ∈ fields, c ∉ f)
    (hfr : ∀ f ∈ fields, f.isSuffixOf red = false) (msg : List Char)
    (hne : noEmptySeg (splitSep c msg) = true) :
    filter_datum fields red (filter_datum fields red msg [c]) [c] =
      filter_datum fields red msg [c] := by
  have hfree : ∀ p ∈ splitSep c msg, c ∉ p := splitSep_no_c c msg
  have h1 : filter_datum fields red msg [c] =
      joinSep c (redactAll fields red (splitSep c msg)) := by
    conv_lhs => rw [← joinSep_splitSep c msg]
    exact filter_datum_eq_segs hcr hred fields hcf (splitSep c msg) hfree hne
  have hf₂ := redactAll_forall₂ red fields (splitSep c msg)
  have hfree₂ : ∀ p ∈ redactAll fields red (splitSep c msg), c ∉ p := by
    intro p hp
    rcases mem_of_forall₂ hf₂ p hp with h | h
    · exact hfree p h
    · exact h ▸ hcr
  have hne₂ : noEmptySeg (redactAll fields red (splitSep c msg)) = true :=
    noEmptySeg_of_forall₂ hred hf₂ hne
  rw [h1, filter_datum_eq_segs hcr hred fields hcf _ hfree₂ hne₂,
    redactAll_idem fields hfr]

theorem anySuf_cons (f : List Char) (fs : List (List Char)) (p : List Char) :
    anySuf (f :: fs) p = (f.isSuffixOf p || anySuf fs p) := rfl

theorem anySuf_red_false {red : List Char} {fields : List (List Char)}
    (hfr : ∀ f ∈ fields, f.isSuffixOf red = false) : anySuf fields red = false := by
  apply List.any_eq_false.mpr
  intro f hf
  simp [hfr f hf]

theorem redactSegsAux_cons₂ (f red prev : List Char) (p : List Char)
    {ps : List (List Char)} (h : ps ≠ []) :
    redactSegsAux f red prev (p :: ps) =
      (if f.isSuffixOf prev && noNL p then red else p) :: redactSegsAux f red p ps := by
  cases ps with
  | nil => exact absurd rfl h
  | cons q rest => rfl

theorem redactAllSegsAux_cons₂ (fields : List (List Char)) (red prev : List Char)
    (p : List Char) {ps : List (List Char)} (h : ps ≠ []) :
    redactAllSegsAux fields red prev (p :: ps) =
      (if anySuf fields prev && noNL p then red else p) ::
        redactAllSegsAux fields red p ps := by
  cases ps with
  | nil => exact absurd rfl h
  | cons q rest => rfl

theorem comb_head_eq {f : List Char} {fs : List (List Char)} {red : List Char}
    (hfr2 : anySuf fs red = false) (prevO prevC p : List Char)
    (hinv : prevC = prevO ∨ (prevC = red ∧ anySuf (f :: fs) prevO = false)) :
    (if anySuf fs prevC && noNL (if f.isSuffixOf prevO && noNL p then red else p)
        then red else (if f.isSuffixOf prevO && noNL p then red else p)) =
      (if anySuf (f :: fs) prevO && noNL p then red else p) := by
  rcases hinv with h | ⟨h, hO⟩
  · rw [h]
    by_cases h1 : (f.isSuffixOf prevO && noNL p) = true
    · rw [if_pos h1]
      have hRHS : (anySuf (f :: fs) prevO && noNL p) = true := by
        have h1s : f.isSuffixOf prevO = true ∧ noNL p = true := by simpa using h1
        simp [anySuf_cons, h1s.1, h1s.2]
      rw [if_pos hRHS, ite_self]
    · have hfn : f.isSuffixOf prevO = false ∨ noNL p = false := by
        by_cases hf : f.isSuffixOf prevO = true
        · refine Or.inr ?_
          by_cases hn : noNL p = true
          · exact absurd (by simp [hf, hn]) h1
          · revert hn
            cases noNL p <;> simp
        · refine Or.inl ?_
          revert hf
          cases f.isSuffixOf prevO <;> simp
      have hinner : (if f.isSuffixOf prevO && noNL p then red else p) = p := by
        rw [if_neg h1]
      rw [hinner]
      rcases hfn with h2 | h2
      · rw [anySuf_cons, h2, Bool.false_or]
      · rw [h2, Bool.and_false, Bool.and_false, if_neg (by simp)]
  · have hf0 : f.isSuffixOf prevO = false ∧ anySuf fs prevO = false := by
      rw [anySuf_cons] at hO
      simpa using hO
    have hp2 : (if f.isSuffixOf prevO && noNL p then red else p) = p := by
      rw [hf0.1, Bool.false_and]
      simp
    rw [hp2, h, hfr2, Bool.false_and, anySuf_cons, hf0.1, hf0.2]
    simp

theorem comb_aux {f : List Char} {fs : List (List Char)} {red : List Char}
    (hfr2 : anySuf fs red = false) :
    ∀ (ps : List (List Char)) (prevO prevC : List Char),
      (prevC = prevO ∨ (prevC = red ∧ anySuf (f :: fs) prevO = false)) →
      noChainAuxB (f :: fs) prevO ps = true →
      redactAllSegsAux fs red prevC (redactSegsAux f red prevO ps) =
        redactAllSegsAux (f :: fs) red prevO ps := by
  intro ps
  induction ps with
  | nil => intro prevO prevC _ _; rfl
  | cons p ps ih =>
    intro prevO prevC hinv hnc
    have hnc₁ : (anySuf (f :: fs) prevO && anySuf (f :: fs) p) = false := by
      have := hnc
      simp only [noChainAuxB, Bool.and_eq_true, Bool.not_eq_true'] at this
      exact this.1
    have hnc₂ : noChainAuxB (f :: fs) p ps = true := by
      have := hnc
      simp only [noChainAuxB, Bool.and_eq_true] at this
      exact this.2
    cases ps with
    | nil => rfl
    | cons q rest =>
      rw [redactSegsAux_cons₂ f red prevO p (by simp),
        redactAllSegsAux_cons₂ fs red prevC _ (redactSegsAux_ne_nil f red p q rest),
        redactAllSegsAux_cons₂ (f :: fs) red prevO p (by simp)]
      refine congrArg₂ (· :: ·) (comb_head_eq hfr2 prevO prevC p hinv) ?_
      refine ih p _ ?_ hnc₂
      by_cases h1 : (f.isSuffixOf prevO && noNL p) = true
      · rw [if_pos h1]
        refine Or.inr ⟨rfl, ?_⟩
        have h1s : f.isSuffixOf prevO = true := (by simpa using h1 :
          f.isSuffixOf prevO = true ∧ noNL p = true).1
        have hO : anySuf (f :: fs) prevO = true := by simp [anySuf_cons, h1s]
        rw [hO, Bool.true_and] at hnc₁
        exact hnc₁
      · rw [if_neg h1]
        exact Or.inl rfl

theorem noChainAuxB_preserved {red : List Char} {F : List (List Char)}
    (hFr : anySuf F red = false) (f : List Char) :
    ∀ (ps : List (List Char)) (prevO prevC : List Char),
      (prevC = prevO ∨ prevC = red) →
      noChainAuxB F prevO ps = true →
      noChainAuxB F prevC (redactSegsAux f red prevO ps) = true := by
  intro ps
  induction ps with
  | nil => intro prevO prevC _ _; rfl
  | cons p ps ih =>
    intro prevO prevC hinv hnc
    have hnc₁ : (anySuf F prevO && anySuf F p) = false := by
      have := hnc
      simp only [noChainAuxB, Bool.and_eq_true, Bool.not_eq_true'] at this
      exact this.1
    have hnc₂ : noChainAuxB F p ps = true := by
      have := hnc
      simp only [noChainAuxB, Bool.and_eq_true] at this
      exact this.2
    have hCO : anySuf F prevC = true → anySuf F prevO = true ∨ prevC = red := by
      intro hC
      rcases hinv with h | h
      · exact Or.inl (h ▸ hC)
      · exact Or.inr h
    cases ps with
    | nil =>
      show noChainAuxB F prevC [p] = true
      simp only [noChainAuxB, Bool.and_eq_true, Bool.not_eq_true']
      refine ⟨?_, trivial⟩
      rcases hinv with h | h
      · rw [h]
        exact hnc₁
      · rw [h, hFr, Bool.false_and]
    | cons q rest =>
      rw [redactSegsAux_cons₂ f red prevO p (by simp)]
      show (!(anySuf F prevC && anySuf F (if f.isSuffixOf prevO && noNL p then red else p)) &&
        noChainAuxB F (if f.isSuffixOf prevO && noNL p then red else p)
          (redactSegsAux f red p (q :: rest))) = true
      have htail : noChainAuxB F (if f.isSuffixOf prevO && noNL p then red else p)
          (redactSegsAux f red p (q :: rest)) = true := by
        refine ih p _ ?_ hnc₂
        by_cases h1 : (f.isSuffixOf prevO && noNL p) = true
        · rw [if_pos h1]; exact Or.inr rfl
        · rw [if_neg h1]; exact Or.inl rfl
      have hhead : (anySuf F prevC &&
          anySuf F (if f.isSuffixOf prevO && noNL p then red else p)) = false := by
        by_cases h1 : (f.isSuffixOf prevO && noNL p) = true
        · rw [if_pos h1, hFr, Bool.and_false]
        · rw [if_neg h1]
          rcases hinv with h | h
          · rw [h]; exact hnc₁
          · rw [h, hFr, Bool.false_and]
      rw [hhead, htail]
      rfl

theorem noChainB_preserved {red : List Char} {F : List (List Char)}
    (hFr : anySuf F red = false) (f : List Char) {parts : List (List Char)}
    (hnc : noChainB F parts = true) :
    noChainB F (redactSegs f red parts) = true := by
  cases parts with
  | nil => rfl
  | cons p ps =>
    show noChainAuxB F p (redactSegsAux f red p ps) = true
    exact noChainAuxB_preserved hFr f ps p p (Or.inl rfl) hnc

theorem anySuf_sub {f : List Char} {fs : List (List Char)} {p : List Char}
    (h : anySuf fs p = true) : anySuf (f :: fs) p = true := by
  rw [anySuf_cons, h, Bool.or_true]

theorem noChainAuxB_mono {f : List Char} {fs : List (List Char)} :
    ∀ (ps : List (List Char)) (prev : List Char),
      noChainAuxB (f :: fs) prev ps = true → noChainAuxB fs prev ps = true := by
  intro ps
  induction ps with
  | nil => intro _ _; rfl
  | cons p ps ih =>
    intro prev h
    simp only [noChainAuxB, Bool.and_eq_true, Bool.not_eq_true'] at h ⊢
    refine ⟨?_, ih p h.2⟩
    by_cases h1 : anySuf fs prev = true
    · by_cases h2 : anySuf fs p = true
      · exfalso
        have hcontra := h.1
        rw [anySuf_sub h1, anySuf_sub h2] at hcontra
        simp at hcontra
      · have h2f : anySuf fs p = false := by
          revert h2
          cases anySuf fs p <;> simp
        rw [h2f, Bool.and_false]
    · have h1f : anySuf fs prev = false := by
        revert h1
        cases anySuf fs prev <;> simp
      rw [h1f, Bool.false_and]

theorem noChainB_mono {f : List Char} {fs : List (List Char)} {parts : List (List Char)}
    (h : noChainB (f :: fs) parts = true) : noChainB fs parts = true := by
  cases parts with
  | nil => rfl
  | cons p ps => exact noChainAuxB_mono ps p h

theorem redactAllSegsAux_nil_fields (red : List Char) :
    ∀ (ps : List (List Char)) (prev : List Char), redactAllSegsAux [] red prev ps = ps := by
  intro ps
  induction ps with
  | nil => intro _; rfl
  | cons p ps ih =>
    intro prev
    cases ps with
    | nil => rfl
    | cons q rest =>
      show (if anySuf [] prev && noNL p then red else p) ::
        redactAllSegsAux [] red p (q :: rest) = p :: q :: rest
      rw [ih p]
      rfl

theorem redactAll_eq_allSegs {red : List Char} :
    ∀ fields : List (List Char), (∀ g ∈ fields, g.isSuffixOf red = false) →
      ∀ parts, noChainB fields parts = true →
        redactAll fields red parts = redactAllSegs fields red parts := by
  intro fields
  induction fields with
  | nil =>
    intro _ parts _
    show parts = redactAllSegs [] red parts
    cases parts with
    | nil => rfl
    | cons p ps =>
      show p :: ps = p :: redactAllSegsAux [] red p ps
      rw [redactAllSegsAux_nil_fields red ps p]
  | cons f fs ih =>
    intro hfr parts hnc
    have hfrfs : ∀ g ∈ fs, g.isSuffixOf red = false :=
      fun g hg => hfr g (List.mem_cons_of_mem f hg)
    have hFr : anySuf (f :: fs) red = false := anySuf_red_false hfr
    have hfr2 : anySuf fs red = false := anySuf_red_false hfrfs
    rw [redactAll_cons,
      ih hfrfs (redactSegs f red parts) (noChainB_mono (noChainB_preserved hFr f hnc))]
    cases parts with
    | nil => rfl
    | cons p ps =>
      show redactAllSegs fs red (p :: redactSegsAux f red p ps) =
        p :: redactAllSegsAux (f :: fs) red p ps
      show p :: redactAllSegsAux fs red p (redactSegsAux f red p ps) = _
      rw [comb_aux hfr2 ps p p (Or.inl rfl) hnc]

theorem anySuf_perm {F₁ F₂ : List (List Char)} (h : F₁.Perm F₂) (p : List Char) :
    anySuf F₁ p = anySuf F₂ p := by
  cases h1 : anySuf F₁ p with
  | true =>
    obtain ⟨f, hf, hfp⟩ := List.any_eq_true.mp h1
    exact (List.any_eq_true.mpr ⟨f, h.mem_iff.mp hf, hfp⟩).symm
  | false =>
    have h2 := List.any_eq_false.mp h1
    exact (List.any_eq_false.mpr (fun f hf => h2 f (h.mem_iff.mpr hf))).symm

theorem redactAllSegsAux_perm {F₁ F₂ : List (List Char)} {red : List Char}
    (h : F₁.Perm F₂) :
    ∀ (ps : List (List Char)) (prev : List Char),
      redactAllSegsAux F₁ red prev ps = redactAllSegsAux F₂ red prev ps := by
  intro ps
  induction ps with
  | nil => intro _; rfl
  | cons p ps ih =>
    intro prev
    cases ps with
    | nil => rfl
    | cons q rest =>
      show (if anySuf F₁ prev && noNL p then red else p) ::
          redactAllSegsAux F₁ red p (q :: rest) = _
      rw [anySuf_perm h prev, ih p]
      rfl

theorem redactAllSegs_perm {F₁ F₂ : List (List Char)} {red : List Char}
    (h : F₁.Perm F₂) (parts : List (List Char)) :
    redactAllSegs F₁ red parts = redactAllSegs F₂ red parts := by
  cases parts with
  | nil => rfl
  | cons p ps =>
    show p :: redactAllSegsAux F₁ red p ps = p :: redactAllSegsAux F₂ red p ps
    rw [redactAllSegsAux_perm h ps p]

theorem noChainAuxB_perm {F₁ F₂ : List (List Char)} (h : F₁.Perm F₂) :
    ∀ (ps : List (List Char)) (prev : List Char),
      noChainAuxB F₁ prev ps = noChainAuxB F₂ prev ps := by
  intro ps
  induction ps with
  | nil => intro _; rfl
  | cons p ps ih =>
    intro prev
    show ((!(anySuf F₁ prev && anySuf F₁ p)) && noChainAuxB F₁ p ps) = _
    rw [anySuf_perm h prev, anySuf_perm h p, ih p]
    rfl

theorem noChainB_perm {F₁ F₂ : List (List Char)} (h : F₁.Perm F₂)
    (parts : List (List Char)) : noChainB F₁ parts = noChainB F₂ parts := by
  cases parts with
  | nil => rfl
  | cons p ps => exact noChainAuxB_perm h ps p

theorem filter_datum_perm {c : Char} {red : List Char} (hcr : c ∉ red) (hred : red ≠ [])
    {fields₁ fields₂ : List (List Char)} (hperm : fields₁.Perm fields₂)
    (hcf : ∀ f ∈ fields₁, c ∉ f) (hfr : ∀ f ∈ fields₁, f.isSuffixOf red = false)
    (msg : List Char) (hne : noEmptySeg (splitSep c msg) = true)
    (hnc : noChainB fields₁ (splitSep c msg) = true) :
    filter_datum fields₁ red msg [c] = filter_datum fields₂ red msg [c] := by
  have hcf₂ : ∀ f ∈ fields₂, c ∉ f := fun f hf => hcf f (hperm.mem_iff.mpr hf)
  have hfr₂ : ∀ f ∈ fields₂, f.isSuffixOf red = false :=
    fun f hf => hfr f (hperm.mem_iff.mpr hf)
  have hnc₂ : noChainB fields₂ (splitSep c msg) = true := by
    rw [← noChainB_perm hperm]
    exact hnc
  have hfree : ∀ p ∈ splitSep c msg, c ∉ p := splitSep_no_c c msg
  have h₁ : filter_datum fields₁ red msg [c] =
      joinSep c (redactAll fields₁ red (splitSep c msg)) := by
    conv_lhs => rw [← joinSep_splitSep c msg]
    exact filter_datum_eq_segs hcr hred fields₁ hcf (splitSep c msg) hfree hne
  have h₂ : filter_datum fields₂ red msg [c] =
      joinSep c (redactAll fields₂ red (splitSep c msg)) := by
    conv_lhs => rw [← joinSep_splitSep c msg]
    exact filter_datum_eq_segs hcr hred fields₂ hcf₂ (splitSep c msg) hfree hne
  rw [h₁, h₂, redactAll_eq_allSegs fields₁ hfr _ hnc,
    redactAll_eq_allSegs fields₂ hfr₂ _ hnc₂, redactAllSegs_perm hperm]

theorem specSegsAux_eq_redact {field red : List Char} :
    ∀ (ps : List (List Char)) (prev : List Char), (∀ p ∈ ps, noNL p = true) →
      redactSegsAux field red prev ps = specSegsAux field red prev ps := by
  intro ps
  induction ps with
  | nil => intro _ _; rfl
  | cons p ps ih =>
    intro prev hnl
    cases ps with
    | nil => rfl
    | cons q rest =>
      show (if field.isSuffixOf prev && noNL p then red else p) ::
          redactSegsAux field red p (q :: rest) = _
      rw [hnl p (List.mem_cons_self p _), Bool.and_true,
        ih p (fun r hr => hnl r (List.mem_cons_of_mem p hr))]
      rfl

theorem specSegs_eq_redact {field red : List Char} (parts : List (List Char))
    (hnl : ∀ p ∈ parts, noNL p = true) :
    redactSegs field red parts = specSegs field red parts := by
  cases parts with
  | nil => rfl
  | cons p ps =>
    show p :: redactSegsAux field red p ps = p :: specSegsAux field red p ps
    rw [specSegsAux_eq_redact ps p (fun r hr => hnl r (List.mem_cons_of_mem p hr))]

theorem specSegsAux_forall₂ (field red : List Char) :
    ∀ (parts : List (List Char)) (prev : List Char),
      List.Forall₂ (fun p r => r = p ∨ r = red) parts (specSegsAux field red prev parts) := by
  intro parts
  induction parts with
  | nil => intro _; exact List.Forall₂.nil
  | cons p ps ih =>
    intro prev
    cases ps with
    | nil => exact List.Forall₂.cons (Or.inl rfl) List.Forall₂.nil
    | cons q rest =>
      refine List.Forall₂.cons ?_ (ih p)
      by_cases hcond : field.isSuffixOf prev = true
      · rw [if_pos hcond]; exact Or.inr rfl
      · rw [if_neg hcond]; exact Or.inl rfl

theorem specSegs_forall₂ (field red : List Char) (parts : List (List Char)) :
    List.Forall₂ (fun p r => r = p ∨ r = red) parts (specSegs field red parts) := by
  cases parts with
  | nil => exact List.Forall₂.nil
  | cons p ps => exact List.Forall₂.cons (Or.inl rfl) (specSegsAux_forall₂ field red ps p)

theorem redactAll_eq_specFold {red : List Char} (hnlr : noNL red = true) :
    ∀ (fields : List (List Char)) (parts : List (List Char)),
      (∀ p ∈ parts, noNL p = true) →
      redactAll fields red parts =
        fields.foldl (fun ps f => specSegs f red ps) parts := by
  intro fields
  induction fields with
  | nil => intro parts _; rfl
  | cons f fs ih =>
    intro parts hnl
    rw [redactAll_cons, specSegs_eq_redact parts hnl]
    show redactAll fs red (specSegs f red parts) = _
    have hnl₂ : ∀ p ∈ specSegs f red parts, noNL p = true := by
      intro p hp
      rcases mem_of_forall₂ (specSegs_forall₂ f red parts) p hp with h | h
      · exact hnl p h
      · exact h ▸ hnlr
    rw [ih (specSegs f red parts) hnl₂]
    rfl

theorem filter_datum_eq_spec {c : Char} {red : List Char} (hcr : c ∉ red)
    (hred : red ≠ []) (hnlr : noNL red = true) (fields : List (List Char))
    (hcf : ∀ f ∈ fields, c ∉ f) (msg : List Char) (hnlm : noNL msg = true)
    (hne : noEmptySeg (splitSep c msg) = true) :
    filter_datum fields red msg [c] = filter_datumSpec fields red msg c := by
  have hfree : ∀ p ∈ splitSep c msg, c ∉ p := splitSep_no_c c msg
  have hnlp : ∀ p ∈ splitSep c msg, noNL p = true := by
    intro p hp
    apply List.all_eq_true.mpr
    intro a ha
    have : a ∈ msg := mem_splitSep_subset msg p hp a ha
    have := List.all_eq_true.mp hnlm a this
    simpa using this
  have h₁ : filter_datum fields red msg [c] =
      joinSep c (redactAll fields red (splitSep c msg)) := by
    conv_lhs => rw [← joinSep_splitSep c msg]
    exact filter_datum_eq_segs hcr hred fields hcf (splitSep c msg) hfree hne
  rw [h₁, redactAll_eq_specFold hnlr fields (splitSep c msg) hnlp]
  rfl

-- ### The claims

/-- C1 (corrected): with a one-character separator, separator-free field
names, a nonempty separator-free newline-free token, a newline-free message,
and no empty segment before the message's last separator, `filter_datum`
performs exactly the replacement rule the specification states — each field
in the given order, every value span after a `field`-plus-separator boundary
replaced by the token, all other text unchanged. Without these conditions
the stated rule and the code diverge (see the counterexample). -/
theorem C1_filter_datum_follows_spec_rule (c : Char) (red : List Char)
    (fields : List (List Char)) (msg : List Char) (hcr : c ∉ red) (hred : red ≠ [])
    (hnlr : noNL red = true) (hcf : ∀ f ∈ fields, c ∉ f) (hnlm : noNL msg = true)
    (hne : noEmptySeg (splitSep c msg) = true) :
    filter_datum fields red msg [c] = filter_datumSpec fields red msg c :=
  filter_datum_eq_spec hcr hred hnlr fields hcf msg hnlm hne

/-- Witness for C1 at a concrete input. -/
theorem C1_filter_datum_follows_spec_rule_witness :
    filter_datum ["name".data] "***".data "name;Bob;x;".data [';'] =
      filter_datumSpec ["name".data] "***".data "name;Bob;x;".data ';' :=
  C1_filter_datum_follows_spec_rule ';' "***".data ["name".data] "name;Bob;x;".data
    (by decide) (by decide) (by decide) (by decide) (by decide) (by decide)

/-- Counterexample to C1 as stated: on a value containing a newline the code
(whose lazy dot does not cross a newline) leaves the span alone, while the
stated rule redacts it. -/
theorem C1_newline_value_not_redacted :
    filter_datumStr ["name"] "***" "name;a\nb;" ";" = "name;a\nb;" ∧
      filter_datumSpecStr ["name"] "***" "name;a\nb;" ';' = "name;***;" := by
  exact ⟨by decide, by decide⟩

/-- C2 (code bug): the specification's scenario message separates each field
name from its value with a colon, so the left boundary the code scans for —
the field name immediately followed by the separator `;`, for instance
`name;` — never occurs in it, and `filter_datum` returns the message
unchanged rather than the redacted line the scenario states. -/
theorem C2_colon_scenario_unchanged :
    filter_datumStr ["name", "email", "phone"] "***"
        "name:Bob;email:bob@x.com;phone:555;" ";" =
      "name:Bob;email:bob@x.com;phone:555;" ∧
      ("name:Bob;email:bob@x.com;phone:555;" : String) ≠
        "name:***;email:***;phone:***;" := by
  exact ⟨by decide, by decide⟩

/-- C3 (corrected): idempotence holds for a one-character separator when the
token is nonempty, contains no separator, no field name is a suffix of the
token, field names contain no separator, and the message has no empty
segment before its last separator; it fails for arbitrary tokens. -/
theorem C3_filter_datum_idempotent (c : Char) (red : List Char)
    (fields : List (List Char)) (msg : List Char) (hcr : c ∉ red) (hred : red ≠ [])
    (hcf : ∀ f ∈ fields, c ∉ f) (hfr : ∀ f ∈ fields, f.isSuffixOf red = false)
    (hne : noEmptySeg (splitSep c msg) = true) :
    filter_datum fields red (filter_datum fields red msg [c]) [c] =
      filter_datum fields red msg [c] :=
  filter_datum_idem hcr hred fields hcf hfr msg hne

/-- Witness for C3 at a concrete input. -/
theorem C3_filter_datum_idempotent_witness :
    filter_datum ["name".data] "***".data
        (filter_datum ["name".data] "***".data "name;Bob;x;".data [';']) [';'] =
      filter_datum ["name".data] "***".data "name;Bob;x;".data [';'] :=
  C3_filter_datum_idempotent ';' "***".data ["name".data] "name;Bob;x;".data
    (by decide) (by decide) (by decide) (by decide) (by decide)

/-- Counterexample to C3 as stated: a token that ends in the separator keeps
introducing new boundaries, so a second application changes the output
again. -/
theorem C3_second_application_differs :
    filter_datumStr ["a"] "a;" (filter_datumStr ["a"] "a;" "a;v;" ";") ";" ≠
      filter_datumStr ["a"] "a;" "a;v;" ";" := by decide

/-- C4 (confirmed): when no configured field name occurs in the message,
`filter_datum` returns the message unchanged — and, being a total function
(C8), it raises no error for an absent field. -/
theorem C4_absent_fields_noop (fields : List (List Char)) (red msg sep : List Char)
    (h : ∀ f ∈ fields, ¬ f <:+: msg) : filter_datum fields red msg sep = msg :=
  filter_datum_id h

/-- Witness for C4 at the specification's scenario input. -/
theorem C4_absent_fields_noop_witness :
    filter_datum ["ssn".data, "password".data] "***".data "id:42;name:Ann;".data
        ";".data = "id:42;name:Ann;".data :=
  C4_absent_fields_noop _ _ _ _ (by decide)

/-- C5 (corrected): `RedactingFormatter.format` renders the record's
message, redacts it with the stored fields, the token `***` and the
separator `;`, and templates the final line — but `FORMAT` also carries a
`%(name)s` slot, so the emitted shape is `[USER] <logger name> <level>
<timestamp>: <redacted message>`, not the claimed shape without the
logger-name slot. -/
theorem C5_format_pipeline_shape (fields : List (List Char)) (r : LogRecord) :
    (RedactingFormatter_format fields r).2 =
      some ("[USER] ".data ++ r.name ++ " ".data ++ r.levelname ++ " ".data ++
        r.asctime ++ ": ".data ++
        filter_datum fields REDACTION (getMessage r) SEPARATOR) := by
  have h : (RedactingFormatter_format fields r).2 =
      some ("[USER] ".data ++ (r.name ++ (' ' :: (r.levelname ++ (' ' :: (r.asctime ++
        (':' :: ' ' :: (filter_datum fields REDACTION (getMessage r) SEPARATOR
          ++ [])))))))) := by rfl
  rw [h]
  simp

/-- Counterexample to C5's claimed line shape: with the logger name
`user_data` in its `%(name)s` slot, the emitted line is not of the shape
`[USER] <level> <timestamp>: <redacted message>`. -/
theorem C5_line_shape_differs :
    (RedactingFormatter_format ["name".data]
        { name := "user_data".data, levelname := "INFO".data, asctime := "ts".data,
          msg := "name;Bob;".data }).2 ≠
      some (claimedLine "INFO".data "ts".data
        (filter_datum ["name".data] REDACTION "name;Bob;".data SEPARATOR)) := by
  decide

/-- C6 (corrected): permuting the field list leaves the output unchanged for
a one-character separator when the token is nonempty and separator-free, no
field name is a suffix of the token, field names are separator-free, the
message has no empty segment before its last separator, and no two
consecutive segments of the message both end in configured field names; the
claim's no-prefix-collision proviso alone does not suffice (see the
counterexample). -/
theorem C6_field_order_irrelevant (c : Char) (red : List Char)
    (fields₁ fields₂ : List (List Char)) (msg : List Char) (hcr : c ∉ red)
    (hred : red ≠ []) (hperm : fields₁.Perm fields₂) (hcf : ∀ f ∈ fields₁, c ∉ f)
    (hfr : ∀ f ∈ fields₁, f.isSuffixOf red = false)
    (hne : noEmptySeg (splitSep c msg) = true)
    (hnc : noChainB fields₁ (splitSep c msg) = true) :
    filter_datum fields₁ red msg [c] = filter_datum fields₂ red msg [c] :=
  filter_datum_perm hcr hred hperm hcf hfr msg hne hnc

/-- Witness for C6 at a concrete input. -/
theorem C6_field_order_irrelevant_witness :
    filter_datum ["name".data, "email".data] "***".data
        "name;Bob;email;b;".data [';'] =
      filter_datum ["email".data, "name".data] "***".data
        "name;Bob;email;b;".data [';'] :=
  C6_field_order_irrelevant ';' "***".data ["name".data, "email".data]
    ["email".data, "name".data] "name;Bob;email;b;".data (by decide) (by decide)
    (by decide) (by decide) (by decide) (by decide) (by decide)

/-- Counterexample to C6 as stated: the fields `f` and `g` do not
prefix-collide, yet the two orderings disagree, because redacting `g`'s span
first makes the token land where it creates a boundary for `f` — order
matters as soon as one field's span ends in another field name. -/
theorem C6_order_changes_output :
    filter_datumStr ["f", "g"] "R" "f;g;p;" ";" ≠
      filter_datumStr ["g", "f"] "R" "f;g;p;" ";" := by decide

/-- C7 (corrected): with a one-character separator and a nonempty
separator-free token, redaction preserves the segment structure — the output
splits on the separator into exactly as many segments, each either the
original segment or the token — so separator occurrences are never altered;
but a field-name occurrence inside a value span can be destroyed, contrary
to the claim's wording (see the counterexample). -/
theorem C7_segments_preserved_or_replaced (c : Char) (red : List Char)
    (fields : List (List Char)) (msg : List Char) (hcr : c ∉ red) (hred : red ≠ [])
    (hcf : ∀ f ∈ fields, c ∉ f) (hne : noEmptySeg (splitSep c msg) = true) :
    List.Forall₂ (fun p r => r = p ∨ r = red) (splitSep c msg)
      (splitSep c (filter_datum fields red msg [c])) :=
  filter_datum_forall₂ hcr hred fields hcf msg hne

/-- Witness for C7 at a concrete input. -/
theorem C7_segments_preserved_or_replaced_witness :
    List.Forall₂ (fun p r => r = p ∨ r = "***".data)
      (splitSep ';' "name;Bob;x;".data)
      (splitSep ';'
        (filter_datum ["name".data] "***".data "name;Bob;x;".data [';'])) :=
  C7_segments_preserved_or_replaced ';' "***".data ["name".data]
    "name;Bob;x;".data (by decide) (by decide) (by decide) (by decide)

/-- Counterexample to C7 as stated: the second occurrence of the field name
`name` sits in a value span and is destroyed by redaction, so field-name
text is not always left unaltered. -/
theorem C7_field_name_occurrence_destroyed :
    filter_datumStr ["name"] "***" "name;name;x;" ";" = "name;***;***;" ∧
      countOcc "name".data "name;name;x;".data = 2 ∧
      countOcc "name".data "name;***;***;".data = 1 := by
  exact ⟨by decide, by decide, by decide⟩

/-- C8 (confirmed): for every field list, token, message and separator, the
fuel-explicit evaluator — which returns `none` if the scan would ever need
more steps than its fuel grants — returns `some` of `filter_datum`'s value:
the substitution always terminates with a string and never fails. -/
theorem C8_filter_datum_total (fields : List (List Char)) (red msg sep : List Char) :
    filter_datumO fields red msg sep = some (filter_datum fields red msg sep) :=
  filter_datumO_eq_some fields red msg sep

/-- C9 (code bug): after one `get_logger()` call, one `info`-level call
writes one line; but a second `get_logger()` call appends another handler to
the same shared `user_data` logger, after which a single `info`-level call
writes two duplicate lines — construction is not the claimed idempotent
singleton. -/
theorem C9_second_get_logger_duplicates_output :
    infoLineCount (get_logger none) = 1 ∧
      infoLineCount (get_logger (some (get_logger none))) = 2 := by
  exact ⟨by decide, by decide⟩

/-- C10 (confirmed): a separator-free tail of the message — in particular a
final value that reaches the end of the message with no closing separator
after its field boundary — survives redaction verbatim as the suffix of the
output, because a replacement needs a following separator as its right
boundary. -/
theorem C10_unclosed_final_value_kept (fields : List (List Char))
    (red sep mid value : List Char) (h : ¬ sep <:+: value) :
    ∃ res, filter_datum fields red (mid ++ value) sep = res ++ value :=
  filter_datum_keeps_tail fields red h mid

/-- Witness for C10 at a concrete input. -/
theorem C10_unclosed_final_value_kept_witness :
    ∃ res, filter_datum ["name".data] "***".data ("name;".data ++ "Bob".data)
      ";".data = res ++ "Bob".data :=
  C10_unclosed_final_value_kept ["name".data] "***".data ";".data "name;".data
    "Bob".data (by decide)
